import Mathlib

/-!
# go-modbus-cli: argument conversion and operation dispatch

A shallow embedding of `main.go`.  Conventions:

* a Go `string` is its byte sequence; a token is written as a Lean `String` and read
  through `bytesOf` (its UTF-8 bytes), the way `strconv` ranges over `[]byte(s)`;
* `int`, `int64` are `Int`, `uint64`, `uint16`, `byte` are `Nat`; every place where the
  machine wraps carries an explicit reduction modulo `2^64`, `2^16` or `2^8`
  (`int` is 64 bits wide, as on every 64-bit Go target);
* a `[]byte` is `Option (List Nat)`: `none` is the nil slice, `some []` the empty
  non-nil slice;
* a Go result pair `(x, err)` is a Lean pair whose second component is `none` for a
  nil error.
-/

namespace ModbusCli

/-! ## Strings and errors -/

/-- UTF-8 encoding of one code point: the bytes a Go string holds for it. -/
def utf8 (c : Nat) : List Nat :=
  if c < 0x80 then [c]
  else if c < 0x800 then [0xC0 + c / 64, 0x80 + c % 64]
  else if c < 0x10000 then [0xE0 + c / 4096, 0x80 + c / 64 % 64, 0x80 + c % 64]
  else [0xF0 + c / 262144, 0x80 + c / 4096 % 64, 0x80 + c / 64 % 64, 0x80 + c % 64]

/-- The byte sequence of a string, `[]byte(s)`. -/
def bytesOf (s : String) : List Nat :=
  s.toList.flatMap (fun c => utf8 c.toNat)

/-- The `Err` field of a `*strconv.NumError`: `strconv.ErrRange`, `strconv.ErrSyntax`,
or the "invalid bit size" error. -/
inductive NumErr where
  | ErrRange
  | ErrSyntax
  | invalidBitSize (bitSize : Int)
  deriving DecidableEq, Repr

/-- A non-nil Go `error` value: a `*strconv.NumError{Func, Num, Err}` or an error handed
back by the Modbus client. -/
inductive GoError where
  | NumError (Func : String) (Num : String) (Err : NumErr)
  | clientError (msg : String)
  deriving DecidableEq, Repr

/-- A `[]byte`; `none` is nil. -/
abbrev ByteSlice := Option (List Nat)

/-- Go `len` of a `[]byte`. -/
def len (b : ByteSlice) : Nat := (b.getD []).length

/-- Go `append(b, x)` on a `[]byte`. -/
def append (b : ByteSlice) (x : Nat) : ByteSlice := some (b.getD [] ++ [x])

/-! ## strconv -/

namespace strconv

/-- The helper `syntaxError(fn, str)`. -/
def syntaxError (fn str : String) : GoError := GoError.NumError fn str NumErr.ErrSyntax

/-- The helper `rangeError(fn, str)`. -/
def rangeError (fn str : String) : GoError := GoError.NumError fn str NumErr.ErrRange

/-- The helper `bitSizeError(fn, str, bitSize)`. -/
def bitSizeError (fn str : String) (bitSize : Int) : GoError :=
  GoError.NumError fn str (NumErr.invalidBitSize bitSize)

/-- The constant `maxUint64`. -/
def maxUint64 : Nat := 2 ^ 64 - 1

/-- The helper `lower(c)`, that is `c | ('x' - 'X')`. -/
def lower (c : Nat) : Nat := c ||| 0x20

/-- The digit loop of `strconv.ParseUint` at `base = 10`, from the accumulator `n`:
`for _, c := range []byte(s)`.  `s0` is the string the errors report.  At base 10 the
underscore case (`base0`) is never taken. -/
def parseUintLoop (s0 : String) (maxVal : Nat) : List Nat → Nat → Nat × Option GoError
  | [], n => (n, none)
  | c :: cs, n =>
    if 48 ≤ c ∧ c ≤ 57 then
      -- d = c - '0', and d < byte(base)
      let d := c - 48
      if n ≥ maxUint64 / 10 + 1 then
        (maxVal, some (rangeError "ParseUint" s0))
      else
        let n10 := (n * 10) % 2 ^ 64
        let n1 := (n10 + d) % 2 ^ 64
        if n1 < n10 ∨ n1 > maxVal then
          (maxVal, some (rangeError "ParseUint" s0))
        else
          parseUintLoop s0 maxVal cs n1
    else if 97 ≤ lower c ∧ lower c ≤ 122 then
      -- d = lower(c) - 'a' + 10, and d >= byte(base)
      (0, some (syntaxError "ParseUint" s0))
    else
      (0, some (syntaxError "ParseUint" s0))

/-- The function `strconv.ParseUint(s, 10, bitSize)`: every call of the program passes
base 10. -/
def ParseUint (s : String) (bitSize : Int) : Nat × Option GoError :=
  if bytesOf s = [] then (0, some (syntaxError "ParseUint" s))
  else if bitSize < 0 ∨ bitSize > 64 then (0, some (bitSizeError "ParseUint" s bitSize))
  else
    -- bitSize == 0 means IntSize
    let bits := if bitSize = 0 then 64 else bitSize.toNat
    -- maxVal := uint64(1)<<uint(bitSize) - 1
    let maxVal := ((2 ^ bits) % 2 ^ 64 + 2 ^ 64 - 1) % 2 ^ 64
    parseUintLoop s maxVal (bytesOf s) 0

end strconv

/-! ## Argument conversion -/

/-- The loop of `convertToByteArray`, from the slice built so far. -/
def convertToByteArrayLoop : List String → ByteSlice → ByteSlice × Option GoError
  | [], valuesAsByte => (valuesAsByte, none)
  | value :: rest, valuesAsByte =>
    match strconv.ParseUint value 8 with
    | (_, some err) => (none, some err)
    | (valueInt, none) => convertToByteArrayLoop rest (append valuesAsByte (valueInt % 256))

/-- The function `convertToByteArray`. -/
def convertToByteArray (values : List String) : ByteSlice × Option GoError :=
  convertToByteArrayLoop values (some [])

/-- Conversion to `int64`/`int`: the two's-complement reading of the low 64 bits. -/
def toInt64 (x : Int) : Int := (x + 2 ^ 63) % 2 ^ 64 - 2 ^ 63

/-- Conversion to `uint64`: the low 64 bits. -/
def toUint64 (x : Int) : Nat := (x % 2 ^ 64).toNat

/-- The shift `value << i` on an `int64` with a non-negative count `i`. -/
def shl64 (value : Int) (i : Nat) : Int := toInt64 (value * 2 ^ i)

/-- The bitwise or `a | b` on 64-bit integers. -/
def or64 (a b : Int) : Int := toInt64 ((toUint64 a ||| toUint64 b : Nat) : Int)

namespace strconv

/-- The function `strconv.ParseInt(s, 10, bitSize)`: every call of the program passes
base 10.  The sign is picked off, the rest goes through `ParseUint(s, 10, 64)`, and the
magnitude is compared with `cutoff = 1 << (bitSize-1)`. -/
def ParseInt (s0 : String) (bitSize : Int) : Int × Option GoError :=
  match bytesOf s0 with
  | [] => (0, some (syntaxError "ParseInt" s0))
  | c :: cs =>
    let neg := decide (c = 45)
    let digits := if c = 43 ∨ c = 45 then cs else c :: cs
    -- ParseUint(s, base, 64) on the string without its sign
    let r : Nat × Option GoError :=
      if digits = [] then (0, some (syntaxError "ParseUint" s0))
      else parseUintLoop s0 maxUint64 digits 0
    match r with
    | (_, some (GoError.NumError _ _ NumErr.ErrSyntax)) => (0, some (syntaxError "ParseInt" s0))
    | (_, some (GoError.NumError _ _ (NumErr.invalidBitSize b))) =>
      (0, some (bitSizeError "ParseInt" s0 b))
    | (_, some (GoError.clientError m)) => (0, some (GoError.clientError m))
    | (un, _) =>
      let bits := if bitSize = 0 then 64 else bitSize
      -- cutoff := uint64(1 << uint(bitSize-1))
      let cutoff := (2 ^ (bits - 1).toNat) % 2 ^ 64
      if !neg ∧ un ≥ cutoff then
        (toInt64 ((cutoff : Int) - 1), some (rangeError "ParseInt" s0))
      else if neg ∧ un > cutoff then
        (toInt64 (-(cutoff : Int)), some (rangeError "ParseInt" s0))
      else
        let n := toInt64 (un : Int)
        (if neg then toInt64 (-n) else n, none)

end strconv

/-- The loop of `convertStringArrayToInt`, at index `i` with the accumulator `ret`. -/
def convertStringArrayToIntLoop : List String → Nat → Int → Int × Option GoError
  | [], _, ret => (ret, none)
  | toConvert :: rest, i, ret =>
    match strconv.ParseInt toConvert 2 with
    | (_, some err) => (-1, some err)
    | (value, none) =>
      let elem := shl64 value i
      convertStringArrayToIntLoop rest (i + 1) (or64 ret elem)

/-- The function `convertStringArrayToInt`. -/
def convertStringArrayToInt (arrayToConvert : List String) : Int × Option GoError :=
  convertStringArrayToIntLoop arrayToConvert 0 0

/-- The first loop of `convertUInt16TArray`: parse every token at the given bit size.
`valuesAsInt` starts as the nil `[]uint64`. -/
def parseAll (bitsize : Int) : List String → List Nat → Option (List Nat) × Option GoError
  | [], valuesAsInt => (some valuesAsInt, none)
  | value :: rest, valuesAsInt =>
    match strconv.ParseUint value bitsize with
    | (_, some err) => (none, some err)
    | (parsedValue, none) => parseAll bitsize rest (valuesAsInt ++ [parsedValue])

/-- The call `binary.Write(byteBuffer, binary.BigEndian, uint16(v))` on a `bytes.Buffer`:
two bytes, high byte first, are appended; writing to a `bytes.Buffer` returns a nil
error.  The buffer is its content, `none` while nothing has been written. -/
def binaryWriteUint16 (byteBuffer : ByteSlice) (v : Nat) : ByteSlice × Option GoError :=
  let x := v % 2 ^ 16
  (some (byteBuffer.getD [] ++ [x / 256, x % 256]), none)

/-- The second loop of `convertUInt16TArray`: serialise every parsed value. -/
def writeAll : List Nat → ByteSlice → ByteSlice × Option GoError
  | [], byteBuffer => (byteBuffer, none)
  | valueAsInt :: rest, byteBuffer =>
    match binaryWriteUint16 byteBuffer valueAsInt with
    | (_, some err) => (none, some err)
    | (byteBuffer1, none) => writeAll rest byteBuffer1

/-- The function `convertUInt16TArray`. -/
def convertUInt16TArray (values : List String) (bitsize : Int) : ByteSlice × Option GoError :=
  match parseAll bitsize values [] with
  | (some valuesAsInt, none) => writeAll valuesAsInt none
  | (_, some err) => (none, some err)
  | (none, none) => (none, none)

/-- The result of `reverse`: the loop swaps the elements of `a` in place and `return a`
hands the same slice back, so the call leaves one and the same element sequence in the
returned slice and in the caller's slice. -/
structure Reversed where
  /-- the slice the call returns -/
  returned : List Nat
  /-- the elements of the caller's slice after the call -/
  caller : List Nat
  deriving DecidableEq, Repr

/-- The loop of `reverse`: `k` is `i + 1`, so the loop runs `i = k-1, ..., 0` and stops
when `i >= 0` fails. -/
def reverseLoop : Nat → List Nat → List Nat
  | 0, a => a
  | i + 1, a =>
    let opp := a.length - 1 - i
    -- a[i], a[opp] = a[opp], a[i]
    reverseLoop i ((a.set i (a.getD opp 0)).set opp (a.getD i 0))

/-- The function `reverse`, on the elements of the slice `a`. -/
def reverse (a : List Nat) : Reversed :=
  let a1 := reverseLoop (a.length / 2) a
  { returned := a1, caller := a1 }

/-- How many low bits of the magnitude `a` do not fit a 53-bit significand: the least
`k` with `a / 2^k < 2^53`, searched up to `fuel`. -/
def dropBits : Nat → Nat → Nat
  | 0, _ => 0
  | fuel + 1, a => if a < 2 ^ 53 then 0 else dropBits fuel (a / 2) + 1

/-- The conversion `float64(x)` of an `int`: the nearest number with a 53-bit
significand, ties to even.  The value is again an integer.  An `int` has a magnitude of
at most `2^63`, so at most 11 bits are dropped. -/
def float64OfInt (x : Int) : Int :=
  let a := x.natAbs
  if a < 2 ^ 53 then x
  else
    let k := dropBits 11 a
    let q := a / 2 ^ k
    let r := a % 2 ^ k
    let q1 := if r > 2 ^ (k - 1) ∨ (r = 2 ^ (k - 1) ∧ q % 2 = 1) then q + 1 else q
    Int.sign x * ((q1 * 2 ^ k : Nat) : Int)

/-- The function `getLen`: `int(math.Ceil(float64(length) / 8.0))`.  Dividing a float64
by 8 only lowers its exponent, so the quotient is exact; `math.Ceil` is exact, and the
result is far inside the range of `int`, where the conversion back is exact. -/
def getLen (length : Int) : Int :=
  ⌈((float64OfInt length : Int) : ℚ) / 8⌉

/-! ## The Modbus client and the operations -/

/-- Conversion to `uint16`: the low 16 bits. -/
def toUint16 (x : Int) : Nat := (x % 2 ^ 16).toNat

/-- A call on the `modbus.Client` interface, with its arguments. -/
inductive Call where
  | WriteSingleCoil (address value : Nat)
  | WriteMultipleCoils (address quantity : Nat) (value : ByteSlice)
  | WriteMultipleRegisters (address quantity : Nat) (value : ByteSlice)
  | ReadCoils (address quantity : Nat)
  deriving DecidableEq, Repr

/-- The external Modbus client: what it answers, `(results, err)`, to a call. -/
abbrev Client := Call → ByteSlice × Option GoError

/-- How an operation ends: it returns `(results, err)`, or it panics at run time. -/
inductive Outcome where
  | returned (results : ByteSlice) (err : Option GoError)
  | panic
  deriving DecidableEq, Repr

/-- One execution of an operation: how it ends and the calls it made on the client, in
order.  What the program prints is not part of the model. -/
structure Run where
  outcome : Outcome
  calls : List Call
  deriving DecidableEq, Repr

/-- The statement `return client.M(args)`: one call, whose answer is returned unchanged. -/
def returnCall (client : Client) (c : Call) : Run :=
  { outcome := Outcome.returned (client c).1 (client c).2, calls := [c] }

/-- The function `writeSingleCoil`. -/
def writeSingleCoil (client : Client) (address : Int) (valueAsString : List String) : Run :=
  match convertToByteArray valueAsString with
  | (_, some err) => { outcome := Outcome.returned none (some err), calls := [] }
  | (values, none) =>
    -- values[0]
    match (values.getD [])[0]? with
    | none => { outcome := Outcome.panic, calls := [] }
    | some v =>
      if v ≥ 1 then returnCall client (Call.WriteSingleCoil (toUint16 address) 0xFF00)
      else returnCall client (Call.WriteSingleCoil (toUint16 address) 0x0000)

/-- The function `writeMultipleRegisters`. -/
def writeMultipleRegisters (client : Client) (address : Int) (values : List String) : Run :=
  match convertUInt16TArray values 16 with
  | (_, some err) => { outcome := Outcome.returned none (some err), calls := [] }
  | (valuesBytes, none) =>
    returnCall client
      (Call.WriteMultipleRegisters (toUint16 address) (toUint16 (len valuesBytes / 2 : Nat))
        valuesBytes)

/-- The function `writeSingleRegisters`. -/
def writeSingleRegisters (client : Client) (address : Int) (values : List String) : Run :=
  match convertUInt16TArray values 16 with
  | (_, some err) => { outcome := Outcome.returned none (some err), calls := [] }
  | (valuesBytes, none) =>
    returnCall client
      (Call.WriteMultipleRegisters (toUint16 address) (toUint16 (len valuesBytes / 2 : Nat))
        valuesBytes)

/-- The call `binary.Write(byteBuffer, binary.BigEndian, v)` for a `uint64` on a fresh
`bytes.Buffer`: eight bytes, most significant first; the error is nil. -/
def binaryWriteUint64 (v : Nat) : List Nat × Option GoError :=
  ((List.range 8).map (fun j => v / 2 ^ (8 * (7 - j)) % 256), none)

/-- The capacity of the slice `byteBuffer.Bytes()` after one eight-byte write: the first
write to a `bytes.Buffer` allocates `smallBufferSize = 64` zeroed bytes. -/
def smallBufferSize : Nat := 64

/-- The function `writeMultipleCoils`.  The slice expression `[0:getLen(len(values))]`
is checked against the capacity of the slice, not its length, and panics beyond it. -/
def writeMultipleCoils (client : Client) (address : Int) (values : List String) : Run :=
  match convertStringArrayToInt values with
  | (_, some err) => { outcome := Outcome.returned none (some err), calls := [] }
  | (valuesAsInt, none) =>
    match binaryWriteUint64 (toUint64 valuesAsInt) with
    | (_, some err) => { outcome := Outcome.returned none (some err), calls := [] }
    | (bytes, none) =>
      let reversed := (reverse bytes).returned
      let high := getLen (values.length : Int)
      if high < 0 ∨ high > (smallBufferSize : Int) then
        { outcome := Outcome.panic, calls := [] }
      else
        let backing := reversed ++ List.replicate (smallBufferSize - reversed.length) 0
        let modbusBytes := backing.take high.toNat
        returnCall client
          (Call.WriteMultipleCoils (toUint16 address) (toUint16 (values.length : Int))
            (some modbusBytes))

/-- The function `readCoils`. -/
def readCoils (client : Client) (address : Int) (size : Int) : Run :=
  returnCall client (Call.ReadCoils (toUint16 address) (toUint16 size))

/-- The values of the command-line flags, `host`, `port`, `operation`, `address`,
`size`. -/
structure Flags where
  host : String
  port : Int
  operation : String
  address : Int
  size : Int
  deriving DecidableEq, Repr

/-- The function `prepareFlags`: the flags as they stand when the command line sets none
of them, that is their declared defaults. -/
def prepareFlags : Flags :=
  { host := "", port := 502, operation := "", address := -1, size := -1 }

/-- The `switch *operation` of `main`, once the connection is open: `resp` starts as the
empty slice and `err` as nil, and an unknown operation leaves them so and calls nothing.
Go cases do not fall through, so the missing `break` of `readCoils` changes nothing. -/
def mainSwitch (client : Client) (flags : Flags) (valuesAsString : List String) : Run :=
  if flags.operation = "writeSingleCoil" then
    writeSingleCoil client flags.address valuesAsString
  else if flags.operation = "writeMultipleRegisters" then
    writeMultipleRegisters client flags.address valuesAsString
  else if flags.operation = "writeMultipleCoils" then
    writeMultipleCoils client flags.address valuesAsString
  else if flags.operation = "writeSingleRegister" then
    writeSingleRegisters client flags.address valuesAsString
  else if flags.operation = "readCoils" then
    readCoils client flags.address flags.size
  else
    { outcome := Outcome.returned (some []) none, calls := [] }

/-- The address argument of a client call. -/
def Call.address : Call → Nat
  | Call.WriteSingleCoil address _ => address
  | Call.WriteMultipleCoils address _ _ => address
  | Call.WriteMultipleRegisters address _ _ => address
  | Call.ReadCoils address _ => address

/-! ## What the claims speak about -/

/-- The value of a digit string read in base 10, continuing from the value `n`. -/
def digitsValue (n : Nat) (cs : List Nat) : Nat :=
  cs.foldl (fun acc c => 10 * acc + (c - 48)) n

/-- An unsigned base-10 numeral: a non-empty string of the ASCII digits `'0'..'9'`
(no sign, no other byte). -/
def IsNumeral (tok : String) : Prop :=
  bytesOf tok ≠ [] ∧ ∀ c ∈ bytesOf tok, 48 ≤ c ∧ c ≤ 57

instance (tok : String) : Decidable (IsNumeral tok) := by
  unfold IsNumeral; infer_instance

/-- The number a numeral denotes. -/
def numeralValue (tok : String) : Nat := digitsValue 0 (bytesOf tok)

/-- The flags of a token list packed little-end first from bit position `i`: the sum of
`value(token_j) * 2^(i+j)`. -/
def packedFrom : List String → Nat → Nat
  | [], _ => 0
  | t :: ts, i => numeralValue t * 2 ^ i + packedFrom ts (i + 1)

/-! ## Lemmas on `strconv.ParseUint` -/

theorem digitsValue_cons (n c : Nat) (cs : List Nat) :
    digitsValue n (c :: cs) = digitsValue (10 * n + (c - 48)) cs := rfl

theorem le_digitsValue (cs : List Nat) : ∀ n, n ≤ digitsValue n cs := by
  induction cs with
  | nil => intro n; exact Nat.le_refl n
  | cons c cs ih =>
    intro n
    rw [digitsValue_cons]
    exact Nat.le_trans (by omega) (ih _)

/-- On digits whose value fits, the loop returns that value and no error. -/
theorem parseUintLoop_ok (s0 : String) (maxVal : Nat) (hmax : maxVal < 2 ^ 64)
    (cs : List Nat) : ∀ n, (∀ c ∈ cs, 48 ≤ c ∧ c ≤ 57) → digitsValue n cs ≤ maxVal →
      strconv.parseUintLoop s0 maxVal cs n = (digitsValue n cs, none) := by
  induction cs with
  | nil => intro n _ _; rfl
  | cons c cs ih =>
    intro n hd hv
    have hc := hd c (List.mem_cons_self c cs)
    have hrest : ∀ x ∈ cs, 48 ≤ x ∧ x ≤ 57 := fun x hx => hd x (List.mem_cons_of_mem c hx)
    rw [digitsValue_cons] at hv
    have hle := le_digitsValue cs (10 * n + (c - 48))
    have h64 : (2 : Nat) ^ 64 = 18446744073709551616 := by norm_num
    rw [h64] at hmax
    have hn : ¬ (n ≥ strconv.maxUint64 / 10 + 1) := by
      simp only [strconv.maxUint64]; omega
    have hn' : n < 1844674407370955162 := by
      simp only [strconv.maxUint64] at hn; omega
    have e10 : (n * 10) % 2 ^ 64 = n * 10 := by rw [h64]; omega
    have e1 : (n * 10 + (c - 48)) % 2 ^ 64 = 10 * n + (c - 48) := by rw [h64]; omega
    rw [strconv.parseUintLoop, if_pos hc, if_neg hn]
    simp only [e10, e1]
    rw [if_neg (by omega), digitsValue_cons]
    exact ih _ hrest hv

/-- On a byte that is no digit, or on digits whose value exceeds `maxVal`, the loop
returns an error. -/
theorem parseUintLoop_err (s0 : String) (maxVal : Nat)
    (cs : List Nat) : ∀ n, n ≤ maxVal →
      ((∃ c ∈ cs, ¬ (48 ≤ c ∧ c ≤ 57)) ∨ maxVal < digitsValue n cs) →
      ∃ v e, strconv.parseUintLoop s0 maxVal cs n = (v, some e) := by
  induction cs with
  | nil =>
    intro n hn h
    rcases h with ⟨c, hc, _⟩ | h
    · cases hc
    · simp only [digitsValue, List.foldl_nil] at h; omega
  | cons c cs ih =>
    intro n hn h
    have h64 : (2 : Nat) ^ 64 = 18446744073709551616 := by norm_num
    rw [strconv.parseUintLoop]
    by_cases hc : 48 ≤ c ∧ c ≤ 57
    · rw [if_pos hc]
      by_cases hcut : n ≥ strconv.maxUint64 / 10 + 1
      · rw [if_pos hcut]; exact ⟨_, _, rfl⟩
      · rw [if_neg hcut]
        have hn' : n < 1844674407370955162 := by
          simp only [strconv.maxUint64] at hcut; omega
        have e10 : (n * 10) % 2 ^ 64 = n * 10 := by rw [h64]; omega
        simp only [e10]
        by_cases hov : (n * 10 + (c - 48)) % 2 ^ 64 < n * 10 ∨
            (n * 10 + (c - 48)) % 2 ^ 64 > maxVal
        · rw [if_pos hov]; exact ⟨_, _, rfl⟩
        · rw [if_neg hov]
          have e1 : (n * 10 + (c - 48)) % 2 ^ 64 = 10 * n + (c - 48) := by
            rw [h64] at hov ⊢; omega
          rw [e1] at hov ⊢
          apply ih _ (by omega)
          rcases h with ⟨x, hx, hxd⟩ | h
          · rcases List.mem_cons.1 hx with rfl | hx
            · exact absurd hc hxd
            · exact Or.inl ⟨x, hx, hxd⟩
          · exact Or.inr (by rwa [digitsValue_cons] at h)
    · rw [if_neg hc]
      by_cases hl : 97 ≤ strconv.lower c ∧ strconv.lower c ≤ 122
      · rw [if_pos hl]; exact ⟨_, _, rfl⟩
      · rw [if_neg hl]; exact ⟨_, _, rfl⟩

/-- The bound `maxVal` of `ParseUint` for a bit size in `1..64`. -/
theorem maxVal_eq (bits : Nat) (h1 : 1 ≤ bits) (h2 : bits ≤ 64) :
    ((2 ^ bits) % 2 ^ 64 + 2 ^ 64 - 1) % 2 ^ 64 = 2 ^ bits - 1 := by
  have hpos : 0 < 2 ^ bits := pow_pos (by norm_num) _
  rcases Nat.lt_or_ge bits 64 with h | h
  · have hlt : 2 ^ bits < 2 ^ 64 := Nat.pow_lt_pow_right (by norm_num) h
    rw [Nat.mod_eq_of_lt hlt]
    have : 2 ^ bits + 2 ^ 64 - 1 = (2 ^ bits - 1) + 2 ^ 64 := by omega
    rw [this, Nat.add_mod_right, Nat.mod_eq_of_lt (by omega)]
  · have : bits = 64 := by omega
    subst this
    norm_num

/-- For a bit size in `1..64`, `ParseUint` accepts a numeral whose value fits. -/
theorem ParseUint_ok (tok : String) (bitSize : Int) (h1 : 1 ≤ bitSize) (h2 : bitSize ≤ 64)
    (hnum : IsNumeral tok) (hv : numeralValue tok ≤ 2 ^ bitSize.toNat - 1) :
    strconv.ParseUint tok bitSize = (numeralValue tok, none) := by
  have hb1 : 1 ≤ bitSize.toNat := by omega
  have hb2 : bitSize.toNat ≤ 64 := by omega
  have hpow : 2 ^ bitSize.toNat ≤ 2 ^ 64 := Nat.pow_le_pow_right (by norm_num) hb2
  have hpos : 0 < 2 ^ bitSize.toNat := pow_pos (by norm_num) _
  rw [strconv.ParseUint, if_neg hnum.1, if_neg (by omega), if_neg (by omega)]
  simp only [maxVal_eq _ hb1 hb2]
  exact parseUintLoop_ok tok _ (by omega) _ 0 hnum.2 hv

/-- For a bit size in `1..64`, `ParseUint` rejects what is no numeral and what does not
fit. -/
theorem ParseUint_err (tok : String) (bitSize : Int) (h1 : 1 ≤ bitSize) (h2 : bitSize ≤ 64)
    (hbad : ¬ IsNumeral tok ∨ 2 ^ bitSize.toNat - 1 < numeralValue tok) :
    ∃ v e, strconv.ParseUint tok bitSize = (v, some e) := by
  have hb1 : 1 ≤ bitSize.toNat := by omega
  have hb2 : bitSize.toNat ≤ 64 := by omega
  have hpow : 2 ^ bitSize.toNat ≤ 2 ^ 64 := Nat.pow_le_pow_right (by norm_num) hb2
  have hpos : 0 < 2 ^ bitSize.toNat := pow_pos (by norm_num) _
  rw [strconv.ParseUint]
  by_cases hne : bytesOf tok = []
  · rw [if_pos hne]; exact ⟨_, _, rfl⟩
  · rw [if_neg hne, if_neg (by omega), if_neg (by omega)]
    simp only [maxVal_eq _ hb1 hb2]
    apply parseUintLoop_err tok _ _ 0 (Nat.zero_le _)
    rcases hbad with hbad | hbad
    · left
      by_contra hall
      apply hbad
      refine ⟨hne, fun c hc => ?_⟩
      by_contra hcd
      exact hall ⟨c, hc, hcd⟩
    · exact Or.inr hbad

/-! ## convertToByteArray -/

theorem convertToByteArrayLoop_err (values : List String) : ∀ acc : ByteSlice,
    (∃ tok ∈ values, ¬ IsNumeral tok ∨ 255 < numeralValue tok) →
    ∃ err, convertToByteArrayLoop values acc = (none, some err) := by
  induction values with
  | nil => intro acc h; rcases h with ⟨tok, htok, _⟩; cases htok
  | cons value rest ih =>
    intro acc h
    rw [convertToByteArrayLoop]
    rcases hp : strconv.ParseUint value 8 with ⟨v, _ | e⟩
    · simp only
      apply ih
      rcases h with ⟨tok, htok, hbad⟩
      rcases List.mem_cons.1 htok with rfl | hmem
      · rcases ParseUint_err tok 8 (by norm_num) (by norm_num) hbad with ⟨v1, e1, he⟩
        rw [hp] at he
        cases he
      · exact ⟨tok, hmem, hbad⟩
    · exact ⟨e, rfl⟩

theorem convertToByteArrayLoop_ok (values : List String) : ∀ acc : List Nat,
    (∀ tok ∈ values, IsNumeral tok ∧ numeralValue tok ≤ 255) →
    convertToByteArrayLoop values (some acc) = (some (acc ++ values.map numeralValue), none) := by
  induction values with
  | nil => intro acc _; simp [convertToByteArrayLoop]
  | cons value rest ih =>
    intro acc h
    have hv := h value (List.mem_cons_self value rest)
    have hp := ParseUint_ok value 8 (by norm_num) (by norm_num) hv.1 hv.2
    rw [convertToByteArrayLoop, hp]
    simp only [append, Option.getD_some]
    rw [ih _ (fun tok htok => h tok (List.mem_cons_of_mem value htok)),
      Nat.mod_eq_of_lt (by omega)]
    simp

/-- C1: whenever some token of the list is not an unsigned base-10 numeral (empty,
signed, or holding a byte that is no digit) or denotes a value above 255,
`convertToByteArray` returns an error together with the nil slice. -/
theorem convertToByteArray_rejects_bad_token (values : List String)
    (h : ∃ tok ∈ values, ¬ IsNumeral tok ∨ 255 < numeralValue tok) :
    ∃ err, convertToByteArray values = (none, some err) :=
  convertToByteArrayLoop_err values (some []) h

/-- C1, at the tokens `1`, `256`: the second one is out of range and the result is the
nil slice with an error. -/
theorem convertToByteArray_rejects_bad_token_witness :
    (∃ tok ∈ ["1", "256"], ¬ IsNumeral tok ∨ 255 < numeralValue tok) ∧
      ∃ err, convertToByteArray ["1", "256"] = (none, some err) :=
  ⟨⟨"256", by decide, Or.inr (by decide)⟩,
    convertToByteArray_rejects_bad_token ["1", "256"] ⟨"256", by decide, Or.inr (by decide)⟩⟩

/-- C2: when every token is an unsigned base-10 numeral with value in `0..255`,
`convertToByteArray` returns no error and a non-nil slice of the same length whose
`i`-th byte is the value of the `i`-th token; the empty list gives the empty slice. -/
theorem convertToByteArray_valid (values : List String)
    (h : ∀ tok ∈ values, IsNumeral tok ∧ numeralValue tok ≤ 255) :
    ∃ bytes : List Nat, convertToByteArray values = (some bytes, none) ∧
      bytes.length = values.length ∧
      (∀ i (hi : i < values.length), bytes[i]? = some (numeralValue values[i])) ∧
      (values = [] → bytes = []) := by
  refine ⟨values.map numeralValue, ?_, by simp, ?_, ?_⟩
  · rw [convertToByteArray, convertToByteArrayLoop_ok values [] h]; simp
  · intro i hi; simp [hi]
  · intro hnil; simp [hnil]

/-- C2, at the tokens `0`, `007`, `255`. -/
theorem convertToByteArray_valid_witness :
    (∀ tok ∈ ["0", "007", "255"], IsNumeral tok ∧ numeralValue tok ≤ 255) ∧
      ∃ bytes : List Nat, convertToByteArray ["0", "007", "255"] = (some bytes, none) ∧
        bytes.length = ["0", "007", "255"].length ∧
        (∀ i (hi : i < ["0", "007", "255"].length),
          bytes[i]? = some (numeralValue (["0", "007", "255"])[i])) ∧
        (["0", "007", "255"] = [] → bytes = []) :=
  ⟨by decide, convertToByteArray_valid ["0", "007", "255"] (by decide)⟩

/-! ## convertStringArrayToInt -/

theorem toInt64_eq_self (x : Int) (h1 : -2 ^ 63 ≤ x) (h2 : x < 2 ^ 63) : toInt64 x = x := by
  unfold toInt64
  have e63 : (2 : Int) ^ 63 = 9223372036854775808 := by norm_num
  have e64 : (2 : Int) ^ 64 = 18446744073709551616 := by norm_num
  rw [e63] at h1 h2 ⊢
  rw [e64]
  omega

theorem toUint64_natCast (n : Nat) (h : n < 2 ^ 64) : toUint64 (n : Int) = n := by
  unfold toUint64
  have e64 : (2 : Nat) ^ 64 = 18446744073709551616 := by norm_num
  have e64i : (2 : Int) ^ 64 = 18446744073709551616 := by norm_num
  rw [e64] at h
  rw [e64i]
  omega

/-- Or-ing a flag shifted to position `i` into a value below `2^i` adds it. -/
theorem or64_shl64_flag (r b i : Nat) (hr : r < 2 ^ i) (hb : b ≤ 1) (hi : i ≤ 62) :
    or64 (r : Int) (shl64 (b : Int) i) = ((r + b * 2 ^ i : Nat) : Int) := by
  have hpow : 2 ^ i ≤ 2 ^ 62 := Nat.pow_le_pow_right (by norm_num) hi
  have e62 : (2 : Nat) ^ 62 = 4611686018427387904 := by norm_num
  have e63 : (2 : Nat) ^ 63 = 9223372036854775808 := by norm_num
  have e64 : (2 : Nat) ^ 64 = 18446744073709551616 := by norm_num
  have hbi : b * 2 ^ i ≤ 2 ^ i := by nlinarith
  have hsh : shl64 (b : Int) i = ((b * 2 ^ i : Nat) : Int) := by
    unfold shl64
    have : (b : Int) * 2 ^ i = ((b * 2 ^ i : Nat) : Int) := by push_cast; ring
    rw [this]
    apply toInt64_eq_self
    · have : (0 : Int) ≤ ((b * 2 ^ i : Nat) : Int) := Int.natCast_nonneg _
      have e : (2 : Int) ^ 63 = 9223372036854775808 := by norm_num
      rw [e]; omega
    · have e : (2 : Int) ^ 63 = ((2 ^ 63 : Nat) : Int) := by norm_num
      rw [e]; exact_mod_cast (by omega : b * 2 ^ i < 2 ^ 63)
  rw [hsh]
  unfold or64
  rw [toUint64_natCast r (by omega), toUint64_natCast (b * 2 ^ i) (by omega)]
  have hor : r ||| b * 2 ^ i = r + b * 2 ^ i := by
    rw [Nat.lor_comm, Nat.mul_comm b, ← Nat.mul_add_lt_is_or hr b, Nat.add_comm]
  rw [hor]
  apply toInt64_eq_self
  · have : (0 : Int) ≤ ((r + b * 2 ^ i : Nat) : Int) := Int.natCast_nonneg _
    have e : (2 : Int) ^ 63 = 9223372036854775808 := by norm_num
    rw [e]; omega
  · have e : (2 : Int) ^ 63 = ((2 ^ 63 : Nat) : Int) := by norm_num
    rw [e]; exact_mod_cast (by omega : r + b * 2 ^ i < 2 ^ 63)

theorem ParseInt_zero : strconv.ParseInt "0" 2 = (0, none) := by decide

theorem ParseInt_one : strconv.ParseInt "1" 2 = (1, none) := by decide

theorem convertStringArrayToIntLoop_flags (toks : List String) : ∀ (i r : Nat),
    r < 2 ^ i → i + toks.length ≤ 63 → (∀ t ∈ toks, t = "0" ∨ t = "1") →
    convertStringArrayToIntLoop toks i (r : Int) = (((r + packedFrom toks i : Nat) : Int), none) := by
  induction toks with
  | nil => intro i r _ _ _; simp [convertStringArrayToIntLoop, packedFrom]
  | cons t ts ih =>
    intro i r hr hlen h
    simp only [List.length_cons] at hlen
    have hts : ∀ x ∈ ts, x = "0" ∨ x = "1" := fun x hx => h x (List.mem_cons_of_mem t hx)
    have hstep : ∀ b : Nat, b ≤ 1 → r + b * 2 ^ i < 2 ^ (i + 1) := by
      intro b hb
      have : b * 2 ^ i ≤ 2 ^ i := by nlinarith
      rw [pow_succ]; omega
    rcases h t (List.mem_cons_self t ts) with rfl | rfl
    · rw [convertStringArrayToIntLoop, ParseInt_zero]
      simp only
      have := or64_shl64_flag r 0 i hr (by norm_num) (by omega)
      rw [show ((0 : Nat) : Int) = 0 from rfl] at this
      rw [this, ih (i + 1) _ (hstep 0 (by norm_num)) (by omega) hts]
      have hv : numeralValue "0" = 0 := by decide
      simp only [packedFrom, hv]
      rw [Nat.add_assoc]
    · rw [convertStringArrayToIntLoop, ParseInt_one]
      simp only
      have := or64_shl64_flag r 1 i hr (by norm_num) (by omega)
      rw [show ((1 : Nat) : Int) = 1 from rfl] at this
      rw [this, ih (i + 1) _ (hstep 1 (by norm_num)) (by omega) hts]
      have hv : numeralValue "1" = 1 := by decide
      simp only [packedFrom, hv]
      rw [Nat.add_assoc]

theorem packedFrom_eq_sum (toks : List String) : ∀ i : Nat,
    packedFrom toks i =
      ∑ j in Finset.range toks.length, numeralValue (toks.getD j "") * 2 ^ (i + j) := by
  induction toks with
  | nil => intro i; simp [packedFrom]
  | cons t ts ih =>
    intro i
    rw [packedFrom, ih (i + 1), List.length_cons, Finset.sum_range_succ']
    simp only [List.getD_cons_succ, List.getD_cons_zero, Nat.add_zero]
    rw [Nat.add_comm]
    congr 1
    apply Finset.sum_congr rfl
    intro j _
    congr 2
    omega

/-- C3: on at most 63 tokens, each `0` or `1`, `convertStringArrayToInt` returns no error
and the integer whose bit `i` is the `i`-th token: the sum of `b_i * 2^i`. -/
theorem convertStringArrayToInt_packs_flags (toks : List String) (hlen : toks.length ≤ 63)
    (h : ∀ t ∈ toks, t = "0" ∨ t = "1") :
    convertStringArrayToInt toks =
      (∑ i in Finset.range toks.length, (numeralValue (toks.getD i "") : Int) * 2 ^ i, none) := by
  have := convertStringArrayToIntLoop_flags toks 0 0 (by norm_num) (by omega) h
  rw [convertStringArrayToInt, show ((0 : Nat) : Int) = 0 from rfl] at *
  rw [this, packedFrom_eq_sum]
  simp

/-- C3, at the tokens `1`, `0`, `1`: the result is 5. -/
theorem convertStringArrayToInt_packs_flags_witness :
    (["1", "0", "1"].length ≤ 63 ∧ ∀ t ∈ ["1", "0", "1"], t = "0" ∨ t = "1") ∧
      convertStringArrayToInt ["1", "0", "1"] = (5, none) :=
  ⟨⟨by decide, by decide⟩,
    (convertStringArrayToInt_packs_flags ["1", "0", "1"] (by decide) (by decide)).trans
      (by decide)⟩

/-- C4: the code at the tokens `-1`, at `-2` and at `1`, `-1`: `ParseInt` with bit size 2
admits the signed range `-2..1`, so these lists are accepted with no error, and the
result is negative. -/
theorem convertStringArrayToInt_accepts_negative :
    convertStringArrayToInt ["-1"] = (-1, none) ∧
      convertStringArrayToInt ["-2"] = (-2, none) ∧
      convertStringArrayToInt ["1", "-1"] = (-1, none) := by
  decide


/-! ## convertUInt16TArray -/

theorem parseAll_err (bitsize : Int) (h1 : 1 ≤ bitsize) (h2 : bitsize ≤ 64)
    (values : List String) : ∀ acc : List Nat,
    (∃ tok ∈ values, ¬ IsNumeral tok ∨ 2 ^ bitsize.toNat - 1 < numeralValue tok) →
    ∃ err, parseAll bitsize values acc = (none, some err) := by
  induction values with
  | nil => intro acc h; rcases h with ⟨tok, htok, _⟩; cases htok
  | cons value rest ih =>
    intro acc h
    rw [parseAll]
    rcases hp : strconv.ParseUint value bitsize with ⟨v, _ | e⟩
    · simp only
      apply ih
      rcases h with ⟨tok, htok, hbad⟩
      rcases List.mem_cons.1 htok with rfl | hmem
      · rcases ParseUint_err tok bitsize h1 h2 hbad with ⟨v1, e1, he⟩
        rw [hp] at he
        cases he
      · exact ⟨tok, hmem, hbad⟩
    · exact ⟨e, rfl⟩

theorem parseAll_ok (bitsize : Int) (h1 : 1 ≤ bitsize) (h2 : bitsize ≤ 64)
    (values : List String) : ∀ acc : List Nat,
    (∀ tok ∈ values, IsNumeral tok ∧ numeralValue tok ≤ 2 ^ bitsize.toNat - 1) →
    parseAll bitsize values acc = (some (acc ++ values.map numeralValue), none) := by
  induction values with
  | nil => intro acc _; simp [parseAll]
  | cons value rest ih =>
    intro acc h
    have hv := h value (List.mem_cons_self value rest)
    rw [parseAll, ParseUint_ok value bitsize h1 h2 hv.1 hv.2]
    simp only
    rw [ih _ (fun tok htok => h tok (List.mem_cons_of_mem value htok))]
    simp

theorem writeAll_eq (vs : List Nat) : ∀ buf : List Nat,
    writeAll vs (some buf) =
      (some (buf ++ vs.flatMap (fun v => [v % 2 ^ 16 / 256, v % 2 ^ 16 % 256])), none) := by
  induction vs with
  | nil => intro buf; simp [writeAll]
  | cons v vs ih =>
    intro buf
    rw [writeAll]
    simp only [binaryWriteUint16, Option.getD_some]
    rw [ih]
    simp

theorem writeAll_nil_buffer (vs : List Nat) :
    writeAll vs none =
      (if vs = [] then none
        else some (vs.flatMap (fun v => [v % 2 ^ 16 / 256, v % 2 ^ 16 % 256])), none) := by
  cases vs with
  | nil => simp [writeAll]
  | cons v vs =>
    rw [writeAll]
    simp only [binaryWriteUint16, Option.getD_none]
    rw [writeAll_eq]
    simp

theorem getElem?_flatMap_pair (f g : Nat → Nat) (vs : List Nat) : ∀ i : Nat,
    (vs.flatMap (fun v => [f v, g v]))[2 * i]? = vs[i]?.map f ∧
      (vs.flatMap (fun v => [f v, g v]))[2 * i + 1]? = vs[i]?.map g := by
  induction vs with
  | nil => intro i; simp
  | cons v vs ih =>
    intro i
    cases i with
    | zero => simp
    | succ i =>
      have e : 2 * (i + 1) = 2 * i + 1 + 1 := by ring
      have e1 : 2 * (i + 1) + 1 = 2 * i + 1 + 1 + 1 := by ring
      have := ih i
      rw [e1, e]
      simp only [List.flatMap_cons, List.cons_append, List.nil_append, List.getElem?_cons_succ]
      exact this

/-- C5: on `n` tokens, each an unsigned base-10 numeral with value `v_i` in `0..65535`,
`convertUInt16TArray(values, 16)` returns no error and exactly `2n` bytes, byte `2i`
being `v_i div 256` and byte `2i+1` being `v_i mod 256` (big-endian words). -/
theorem convertUInt16TArray_big_endian (values : List String)
    (h : ∀ tok ∈ values, IsNumeral tok ∧ numeralValue tok ≤ 65535) :
    ∃ b : ByteSlice, convertUInt16TArray values 16 = (b, none) ∧
      len b = 2 * values.length ∧
      (∀ i (hi : i < values.length),
        (b.getD [])[2 * i]? = some (numeralValue values[i] / 256) ∧
        (b.getD [])[2 * i + 1]? = some (numeralValue values[i] % 256)) ∧
      b = (if values = [] then none
        else some (values.flatMap (fun t => [numeralValue t / 256, numeralValue t % 256]))) := by
  have hp := parseAll_ok 16 (by norm_num) (by norm_num) values []
    (fun tok htok => by have := h tok htok; exact ⟨this.1, by simpa using this.2⟩)
  have hflat : (values.map numeralValue).flatMap
      (fun v => [v % 2 ^ 16 / 256, v % 2 ^ 16 % 256]) =
      values.flatMap (fun t => [numeralValue t / 256, numeralValue t % 256]) := by
    rw [List.flatMap_map]
    apply List.flatMap_congr
    intro t ht
    have := (h t ht).2
    rw [Nat.mod_eq_of_lt (by omega)]
  have hlen : ∀ l : List String,
      (l.flatMap (fun t => [numeralValue t / 256, numeralValue t % 256])).length =
        2 * l.length := by
    intro l
    induction l with
    | nil => rfl
    | cons t ts ih =>
      simp only [List.flatMap_cons, List.length_append, ih, List.length_cons, List.length_nil]
      omega
  have hidx : ∀ i (hi : i < values.length),
      (values.flatMap (fun t => [numeralValue t / 256, numeralValue t % 256]))[2 * i]? =
          some (numeralValue values[i] / 256) ∧
        (values.flatMap (fun t => [numeralValue t / 256, numeralValue t % 256]))[2 * i + 1]? =
          some (numeralValue values[i] % 256) := by
    intro i hi
    have := getElem?_flatMap_pair (fun v => v / 256) (fun v => v % 256)
      (values.map numeralValue) i
    rw [List.flatMap_map] at this
    simpa [hi] using this
  refine ⟨_, ?_, ?_, ?_, rfl⟩
  · rw [convertUInt16TArray, hp]
    simp only [List.nil_append]
    rw [writeAll_nil_buffer, hflat]
    cases values <;> simp
  · cases values with
    | nil => simp [len]
    | cons t ts => simp only [len, if_neg (List.cons_ne_nil t ts), Option.getD_some, hlen]
  · intro i hi
    cases values with
    | nil => simp at hi
    | cons t ts =>
      simp only [if_neg (List.cons_ne_nil t ts), Option.getD_some]
      exact hidx i hi

/-- C5, at the tokens `1`, `2`: the bytes are `00 01 00 02`. -/
theorem convertUInt16TArray_big_endian_witness :
    (∀ tok ∈ ["1", "2"], IsNumeral tok ∧ numeralValue tok ≤ 65535) ∧
      convertUInt16TArray ["1", "2"] 16 = (some [0x00, 0x01, 0x00, 0x02], none) := by
  refine ⟨by decide, ?_⟩
  rcases convertUInt16TArray_big_endian ["1", "2"] (by decide) with ⟨b, hb, _, _, hval⟩
  rw [hb, hval]
  decide

/-- C6: for a bit size in `1..64`, whenever some token is not an unsigned base-10 numeral
or denotes a value above `2^bitsize - 1`, `convertUInt16TArray(values, bitsize)` returns
an error together with the nil slice. -/
theorem convertUInt16TArray_rejects_bad_token (values : List String) (bitsize : Int)
    (h1 : 1 ≤ bitsize) (h2 : bitsize ≤ 64)
    (h : ∃ tok ∈ values, ¬ IsNumeral tok ∨ 2 ^ bitsize.toNat - 1 < numeralValue tok) :
    ∃ err, convertUInt16TArray values bitsize = (none, some err) := by
  rcases parseAll_err bitsize h1 h2 values [] h with ⟨err, he⟩
  exact ⟨err, by rw [convertUInt16TArray, he]⟩

/-- C6, at bit size 16 and the tokens `1`, `65536`: the token above 65535 is rejected. -/
theorem convertUInt16TArray_rejects_bad_token_witness :
    ((1 : Int) ≤ 16 ∧ (16 : Int) ≤ 64 ∧
        ∃ tok ∈ ["1", "65536"], ¬ IsNumeral tok ∨ 2 ^ (16 : Int).toNat - 1 < numeralValue tok) ∧
      ∃ err, convertUInt16TArray ["1", "65536"] 16 = (none, some err) :=
  ⟨⟨by decide, by decide, ⟨"65536", by decide, Or.inr (by decide)⟩⟩,
    convertUInt16TArray_rejects_bad_token ["1", "65536"] 16 (by decide) (by decide)
      ⟨"65536", by decide, Or.inr (by decide)⟩⟩


/-! ## getLen -/

/-- Up to `2^53` the conversion to float64 is exact. -/
theorem float64OfInt_exact (n : Int) (h0 : 0 ≤ n) (h1 : n ≤ 2 ^ 53) : float64OfInt n = n := by
  have e53 : (2 : Int) ^ 53 = 9007199254740992 := by norm_num
  have e53n : (2 : Nat) ^ 53 = 9007199254740992 := by norm_num
  rw [e53] at h1
  rcases lt_or_ge n 9007199254740992 with hlt | hge
  · unfold float64OfInt
    simp only
    rw [if_pos (by rw [e53n]; omega)]
  · have : n = 9007199254740992 := by omega
    subst this
    decide

/-- The function `getLen` returns the least `k` with `8 * k` at least `float64(length)`. -/
theorem getLen_least_float (n : Int) :
    float64OfInt n ≤ 8 * getLen n ∧ ∀ k : Int, float64OfInt n ≤ 8 * k → getLen n ≤ k := by
  unfold getLen
  constructor
  · have h := Int.le_ceil (((float64OfInt n : Int) : ℚ) / 8)
    have h2 : ((float64OfInt n : Int) : ℚ) ≤ 8 * (⌈((float64OfInt n : Int) : ℚ) / 8⌉ : ℚ) := by
      linarith
    exact_mod_cast h2
  · intro k hk
    apply Int.ceil_le.2
    have hk2 : ((float64OfInt n : Int) : ℚ) ≤ 8 * (k : ℚ) := by exact_mod_cast hk
    linarith

/-- C7: `getLen(n)` is 1 for a bit count `n` in `1..8` and 2 for `n` in `9..16`. -/
theorem getLen_small_ranges (n : Int) (h1 : 1 ≤ n) (h16 : n ≤ 16) :
    getLen n = if n ≤ 8 then 1 else 2 := by
  have hf := float64OfInt_exact n (by omega) (by norm_num; omega)
  have hl := getLen_least_float n
  rw [hf] at hl
  have a1 := hl.2 1
  have a2 := hl.2 2
  split <;> omega

/-- C7, at the bit counts 8 and 9. -/
theorem getLen_small_ranges_witness :
    ((1 : Int) ≤ 8 ∧ (8 : Int) ≤ 16 ∧ getLen 8 = 1) ∧
      ((1 : Int) ≤ 9 ∧ (9 : Int) ≤ 16 ∧ getLen 9 = 2) :=
  ⟨⟨by decide, by decide, getLen_small_ranges 8 (by decide) (by decide)⟩,
    ⟨by decide, by decide, getLen_small_ranges 9 (by decide) (by decide)⟩⟩

/-- C8, as stated, fails at the bit count `2^53 + 1`: `float64` rounds it to `2^53`, so
`getLen` returns `2^50`, and `8 * 2^50` bits do not cover `2^53 + 1` bits. -/
theorem getLen_not_ceiling_at_2_pow_53_succ :
    float64OfInt 9007199254740993 = 9007199254740992 ∧
      getLen 9007199254740993 = 1125899906842624 ∧
      ¬ ((9007199254740993 : Int) ≤ 8 * getLen 9007199254740993) := by
  have hf : float64OfInt 9007199254740993 = 9007199254740992 := by decide
  have hl := getLen_least_float 9007199254740993
  rw [hf] at hl
  have a := hl.2 1125899906842624 (by norm_num)
  refine ⟨hf, ?_, ?_⟩ <;> omega

/-- C8, amended: for a bit count `n` with `0 <= n <= 2^53`, where the conversion to
float64 is exact, `getLen(n)` is the ceiling of `n / 8`: the least integer `k` with
`8 * k >= n`. -/
theorem getLen_ceiling_up_to_2_pow_53 (n : Int) (h0 : 0 ≤ n) (h1 : n ≤ 2 ^ 53) :
    n ≤ 8 * getLen n ∧ (∀ k : Int, n ≤ 8 * k → getLen n ≤ k) ∧ getLen n = (n + 7) / 8 := by
  have hf := float64OfInt_exact n h0 h1
  have hl := getLen_least_float n
  rw [hf] at hl
  refine ⟨hl.1, hl.2, ?_⟩
  have a := hl.2 ((n + 7) / 8) (by omega)
  have b := hl.1
  omega

/-- C8 amended, at the bit count 17: three bytes. -/
theorem getLen_ceiling_up_to_2_pow_53_witness :
    ((0 : Int) ≤ 17 ∧ (17 : Int) ≤ 2 ^ 53) ∧
      ((17 : Int) ≤ 8 * getLen 17 ∧ (∀ k : Int, 17 ≤ 8 * k → getLen 17 ≤ k) ∧
        getLen 17 = (17 + 7) / 8) :=
  ⟨⟨by decide, by decide⟩, getLen_ceiling_up_to_2_pow_53 17 (by decide) (by decide)⟩


/-! ## reverse -/

/-- One pass of the loop body of `reverse`: the elements at `i` and `o` change places. -/
theorem getElem?_swap (b : List Nat) (i o : Nat) (hi : i < b.length) (ho : o < b.length)
    (hne : i ≠ o) (j : Nat) :
    ((b.set i (b.getD o 0)).set o (b.getD i 0))[j]? =
      if j = o then b[i]? else if j = i then b[o]? else b[j]? := by
  rw [List.getElem?_set, List.getElem?_set, List.length_set]
  by_cases hjo : j = o
  · subst hjo
    simp [ho, List.getElem?_eq_getElem hi]
  · by_cases hji : j = i
    · subst hji
      simp [hi, hjo, Ne.symm hjo, List.getElem?_eq_getElem ho]
    · simp [hjo, hji, Ne.symm hjo, Ne.symm hji]

/-- The loop invariant of `reverse`: when the positions `k .. n-1-k` already hold the
mirrored elements of `a`, the remaining passes mirror the rest. -/
theorem reverseLoop_spec (a : List Nat) : ∀ (k : Nat) (b : List Nat),
    b.length = a.length → k ≤ a.length / 2 →
    (∀ j, b[j]? = if k ≤ j ∧ j < a.length - k then a[a.length - 1 - j]? else a[j]?) →
    reverseLoop k b = a.reverse := by
  intro k
  induction k with
  | zero =>
    intro b _ _ hinv
    rw [reverseLoop]
    apply List.ext_getElem?
    intro j
    rw [hinv j]
    by_cases hj : j < a.length
    · rw [if_pos ⟨Nat.zero_le j, by omega⟩, List.getElem?_reverse hj]
    · rw [if_neg (by omega), List.getElem?_eq_none (by omega),
        List.getElem?_eq_none (by rw [List.length_reverse]; omega)]
  | succ k ih =>
    intro b hlen hk hinv
    rw [reverseLoop]
    have hkn : k < a.length := by omega
    have hon : a.length - 1 - k < a.length := by omega
    apply ih _ (by simp [hlen]) (by omega)
    intro j
    rw [hlen, getElem?_swap b k (a.length - 1 - k) (by omega) (by omega) (by omega) j]
    by_cases hjo : j = a.length - 1 - k
    · rw [if_pos hjo, hinv k, if_neg (by omega), if_pos (by omega)]
      congr 1
      omega
    · rw [if_neg hjo]
      by_cases hjk : j = k
      · rw [if_pos hjk, hinv (a.length - 1 - k), if_neg (by omega), if_pos (by omega), hjk]
      · rw [if_neg hjk, hinv j]
        by_cases hc : k + 1 ≤ j ∧ j < a.length - (k + 1)
        · rw [if_pos hc, if_pos (by omega)]
        · rw [if_neg hc, if_neg (by omega)]

theorem reverseLoop_eq_reverse (a : List Nat) : reverseLoop (a.length / 2) a = a.reverse := by
  apply reverseLoop_spec a _ a rfl (Nat.le_refl _)
  intro j
  by_cases hc : a.length / 2 ≤ j ∧ j < a.length - a.length / 2
  · rw [if_pos hc]
    congr 1
    omega
  · rw [if_neg hc]

/-- C9: for every byte sequence `a` of length `n`, `reverse(a)` has length `n` and holds
at each index `i < n` the original element of index `n-1-i`; the swap being in place, the
caller's slice holds the same elements afterwards. -/
theorem reverse_reverses (a : List Nat) :
    (reverse a).returned.length = a.length ∧
      (∀ i, i < a.length → (reverse a).returned[i]? = a[a.length - 1 - i]?) ∧
      (reverse a).caller = (reverse a).returned ∧
      (reverse a).returned = a.reverse := by
  have h : (reverse a).returned = a.reverse := reverseLoop_eq_reverse a
  refine ⟨by rw [h, List.length_reverse], ?_, rfl, h⟩
  intro i hi
  rw [h, List.getElem?_reverse hi]

/-- C9, at a sequence of odd length and at the empty sequence. -/
theorem reverse_reverses_witness :
    (reverse [1, 2, 3, 4, 5]).returned.length = 5 ∧
      (reverse [1, 2, 3, 4, 5]).returned[1]? = some 4 ∧
      (reverse [1, 2, 3, 4, 5]).caller = [5, 4, 3, 2, 1] ∧
      (reverse []).returned.length = 0 :=
  ⟨(reverse_reverses [1, 2, 3, 4, 5]).1,
    ((reverse_reverses [1, 2, 3, 4, 5]).2.1 1 (by decide)).trans (by decide),
    ((reverse_reverses [1, 2, 3, 4, 5]).2.2.1).trans
      (((reverse_reverses [1, 2, 3, 4, 5]).2.2.2).trans (by decide)),
    (reverse_reverses []).1⟩

/-! ## The operations -/

/-- C10: when the conversion of the tokens returns an error, each write operation
returns that same error with a nil response and makes no call on the client. -/
theorem conversion_failure_short_circuits (client : Client) (address : Int)
    (values : List String) :
    (∀ b err, convertToByteArray values = (b, some err) →
        writeSingleCoil client address values =
          { outcome := Outcome.returned none (some err), calls := [] }) ∧
      (∀ v err, convertStringArrayToInt values = (v, some err) →
        writeMultipleCoils client address values =
          { outcome := Outcome.returned none (some err), calls := [] }) ∧
      (∀ b err, convertUInt16TArray values 16 = (b, some err) →
        writeMultipleRegisters client address values =
          { outcome := Outcome.returned none (some err), calls := [] }) ∧
      (∀ b err, convertUInt16TArray values 16 = (b, some err) →
        writeSingleRegisters client address values =
          { outcome := Outcome.returned none (some err), calls := [] }) := by
  refine ⟨?_, ?_, ?_, ?_⟩
  · intro b err h; simp only [writeSingleCoil, h]
  · intro v err h; simp only [writeMultipleCoils, h]
  · intro b err h; simp only [writeMultipleRegisters, h]
  · intro b err h; simp only [writeSingleRegisters, h]

/-- C10, at the token `x`, address 7 and a client that would answer every call: the four
operations hand back the parse error of the conversion and call nothing. -/
theorem conversion_failure_short_circuits_witness :
    writeSingleCoil (fun _ => (some [1], none)) 7 ["x"] =
        { outcome := Outcome.returned none (some (strconv.syntaxError "ParseUint" "x")),
          calls := [] } ∧
      writeMultipleCoils (fun _ => (some [1], none)) 7 ["x"] =
        { outcome := Outcome.returned none (some (strconv.syntaxError "ParseInt" "x")),
          calls := [] } ∧
      writeMultipleRegisters (fun _ => (some [1], none)) 7 ["x"] =
        { outcome := Outcome.returned none (some (strconv.syntaxError "ParseUint" "x")),
          calls := [] } ∧
      writeSingleRegisters (fun _ => (some [1], none)) 7 ["x"] =
        { outcome := Outcome.returned none (some (strconv.syntaxError "ParseUint" "x")),
          calls := [] } :=
  ⟨(conversion_failure_short_circuits (fun _ => (some [1], none)) 7 ["x"]).1
      none (strconv.syntaxError "ParseUint" "x") (by decide),
    (conversion_failure_short_circuits (fun _ => (some [1], none)) 7 ["x"]).2.1
      (-1) (strconv.syntaxError "ParseInt" "x") (by decide),
    (conversion_failure_short_circuits (fun _ => (some [1], none)) 7 ["x"]).2.2.1
      none (strconv.syntaxError "ParseUint" "x") (by decide),
    (conversion_failure_short_circuits (fun _ => (some [1], none)) 7 ["x"]).2.2.2
      none (strconv.syntaxError "ParseUint" "x") (by decide)⟩


/-- A conversion that returns no error returns a non-nil slice with one byte per token. -/
theorem convertToByteArrayLoop_length (values : List String) : ∀ (acc : List Nat) (b : ByteSlice),
    convertToByteArrayLoop values (some acc) = (b, none) →
    ∃ l : List Nat, b = some l ∧ l.length = acc.length + values.length := by
  induction values with
  | nil =>
    intro acc b h
    rw [convertToByteArrayLoop] at h
    cases h
    exact ⟨acc, rfl, rfl⟩
  | cons value rest ih =>
    intro acc b h
    rw [convertToByteArrayLoop] at h
    rcases hp : strconv.ParseUint value 8 with ⟨v, _ | e⟩
    · rw [hp] at h
      simp only [append, Option.getD_some] at h
      rcases ih _ b h with ⟨l, hl, hlen⟩
      refine ⟨l, hl, ?_⟩
      simp only [List.length_append, List.length_cons, List.length_nil] at hlen ⊢
      omega
    · rw [hp] at h
      cases h

/-- C13: on a non-empty token list whose tokens all parse as bytes, `writeSingleCoil`
makes exactly one call, `WriteSingleCoil(uint16(address), v)` with `v = 0xFF00` when the
value of the first token is at least 1 and `v = 0x0000` when it is 0, whatever the other
tokens are, and returns the answer of that call unchanged. -/
theorem writeSingleCoil_first_token (client : Client) (address : Int) (tok : String)
    (rest : List String)
    (h : ∀ t ∈ tok :: rest, IsNumeral t ∧ numeralValue t ≤ 255) :
    writeSingleCoil client address (tok :: rest) =
      { outcome := Outcome.returned
          (client (Call.WriteSingleCoil (toUint16 address)
            (if numeralValue tok ≥ 1 then 0xFF00 else 0x0000))).1
          (client (Call.WriteSingleCoil (toUint16 address)
            (if numeralValue tok ≥ 1 then 0xFF00 else 0x0000))).2,
        calls := [Call.WriteSingleCoil (toUint16 address)
          (if numeralValue tok ≥ 1 then 0xFF00 else 0x0000)] } ∧
      toUint16 address = (address % 65536).toNat := by
  refine ⟨?_, rfl⟩
  have hc := convertToByteArrayLoop_ok (tok :: rest) [] h
  rw [writeSingleCoil, convertToByteArray, hc]
  simp only [List.nil_append, List.map_cons, Option.getD_some, List.getElem?_cons_zero]
  by_cases hv : numeralValue tok ≥ 1
  · rw [if_pos hv, if_pos hv]; rfl
  · rw [if_neg hv, if_neg hv]; rfl

/-- C13, at the tokens `2`, `0` and at the tokens `0`, `1`, address 3: the first token
alone picks `0xFF00` or `0x0000`. -/
theorem writeSingleCoil_first_token_witness :
    (∀ t ∈ ["2", "0"], IsNumeral t ∧ numeralValue t ≤ 255) ∧
      (writeSingleCoil (fun _ => (some [1], none)) 3 ["2", "0"]).calls =
        [Call.WriteSingleCoil 3 0xFF00] ∧
      (writeSingleCoil (fun _ => (some [1], none)) 3 ["0", "1"]).calls =
        [Call.WriteSingleCoil 3 0x0000] :=
  ⟨by decide,
    (congrArg Run.calls
      (writeSingleCoil_first_token (fun _ => (some [1], none)) 3 "2" ["0"] (by decide)).1).trans
      (by decide),
    (congrArg Run.calls
      (writeSingleCoil_first_token (fun _ => (some [1], none)) 3 "0" ["1"] (by decide)).1).trans
      (by decide)⟩

/-- C14: `writeSingleCoil` reads `values[0]` with no length check.  On the empty token
list `convertToByteArray` returns the empty slice and no error, so the read is reached
and is out of range: the operation panics, having called nothing.  On a non-empty list
that parses the index is in range and the operation does not panic. -/
theorem writeSingleCoil_index_unchecked (client : Client) (address : Int) :
    convertToByteArray [] = (some [], none) ∧
      writeSingleCoil client address [] = { outcome := Outcome.panic, calls := [] } ∧
      ∀ (values : List String) (b : ByteSlice), values ≠ [] →
        convertToByteArray values = (b, none) →
        (∃ v, (b.getD [])[0]? = some v) ∧
          (writeSingleCoil client address values).outcome ≠ Outcome.panic := by
  refine ⟨rfl, rfl, ?_⟩
  intro values b hne hb
  rcases convertToByteArrayLoop_length values [] b hb with ⟨l, hl, hlen⟩
  subst hl
  cases l with
  | nil =>
    cases values with
    | nil => exact absurd rfl hne
    | cons t ts => simp at hlen
  | cons v l =>
    refine ⟨⟨v, by simp⟩, ?_⟩
    rw [writeSingleCoil, hb]
    simp only [Option.getD_some, List.getElem?_cons_zero]
    split <;> simp [returnCall]

/-- C14, at the token list `5`: the index is in range and the operation returns. -/
theorem writeSingleCoil_index_unchecked_witness :
    (["5"] : List String) ≠ [] ∧ convertToByteArray ["5"] = (some [5], none) ∧
      (writeSingleCoil (fun _ => (some [1], none)) 0 ["5"]).outcome ≠ Outcome.panic ∧
      writeSingleCoil (fun _ => (some [1], none)) 0 [] =
        { outcome := Outcome.panic, calls := [] } :=
  ⟨by decide, by decide,
    ((writeSingleCoil_index_unchecked (fun _ => (some [1], none)) 0).2.2 ["5"] (some [5])
      (by decide) (by decide)).2,
    (writeSingleCoil_index_unchecked (fun _ => (some [1], none)) 0).2.1⟩

/-! ## The register writes and the address -/

theorem toUint16_natCast (n : Nat) : toUint16 (n : Int) = n % 65536 := by
  unfold toUint16
  have e : (2 : Int) ^ 16 = 65536 := by norm_num
  rw [e]
  omega

/-- A parse loop that returns no error returns one value per token. -/
theorem parseAll_length (bitsize : Int) (values : List String) :
    ∀ (acc : List Nat) (r : Option (List Nat)),
    parseAll bitsize values acc = (r, none) →
    ∃ vs : List Nat, r = some vs ∧ vs.length = acc.length + values.length := by
  induction values with
  | nil =>
    intro acc r h
    rw [parseAll] at h
    cases h
    exact ⟨acc, rfl, rfl⟩
  | cons value rest ih =>
    intro acc r h
    rw [parseAll] at h
    rcases hp : strconv.ParseUint value bitsize with ⟨v, _ | e⟩
    · rw [hp] at h
      simp only at h
      rcases ih _ r h with ⟨vs, hvs, hlen⟩
      refine ⟨vs, hvs, ?_⟩
      simp only [List.length_append, List.length_cons, List.length_nil] at hlen ⊢
      omega
    · rw [hp] at h
      cases h

theorem length_flatMap_pair (f g : Nat → Nat) (vs : List Nat) :
    (vs.flatMap (fun v => [f v, g v])).length = 2 * vs.length := by
  induction vs with
  | nil => rfl
  | cons v vs ih =>
    simp only [List.flatMap_cons, List.length_append, ih, List.length_cons, List.length_nil]
    omega

/-- A conversion that returns no error returns two bytes per token. -/
theorem convertUInt16TArray_len (values : List String) (bitsize : Int) (bytes : ByteSlice)
    (h : convertUInt16TArray values bitsize = (bytes, none)) :
    len bytes = 2 * values.length := by
  rw [convertUInt16TArray] at h
  rcases hp : parseAll bitsize values [] with ⟨r, _ | e⟩
  · rcases parseAll_length bitsize values [] r hp with ⟨vs, hvs, hlen⟩
    subst hvs
    rw [hp] at h
    simp only at h
    rw [writeAll_nil_buffer] at h
    simp only [List.length_nil, Nat.zero_add] at hlen
    cases h
    by_cases hnil : vs = []
    · subst hnil
      simp only [List.length_nil] at hlen
      simp [len, ← hlen]
    · rw [if_neg hnil]
      simp only [len, Option.getD_some]
      rw [length_flatMap_pair, hlen]
  · rw [hp] at h
    simp at h

/-- C15: `writeSingleRegisters` and `writeMultipleRegisters` return the same result and
make the same client calls.  When the conversion succeeds that is the one call
`WriteMultipleRegisters(uint16(address), q, bytes)`, with `bytes` the result of
`convertUInt16TArray(values, 16)` and `q = (len(bytes)/2) mod 2^16`, the number of tokens
mod `2^16`; when it fails, neither makes a call. -/
theorem writeSingleRegisters_eq_writeMultipleRegisters (client : Client) (address : Int)
    (values : List String) :
    writeSingleRegisters client address values = writeMultipleRegisters client address values ∧
      (∀ bytes, convertUInt16TArray values 16 = (bytes, none) →
        writeMultipleRegisters client address values =
          returnCall client
            (Call.WriteMultipleRegisters (toUint16 address) ((len bytes / 2) % 2 ^ 16) bytes) ∧
        (len bytes / 2) % 2 ^ 16 = values.length % 2 ^ 16) ∧
      (∀ bytes err, convertUInt16TArray values 16 = (bytes, some err) →
        (writeMultipleRegisters client address values).calls = []) := by
  refine ⟨rfl, ?_, ?_⟩
  · intro bytes h
    have hl := convertUInt16TArray_len values 16 bytes h
    refine ⟨?_, by rw [hl]; congr 1; omega⟩
    simp only [writeMultipleRegisters, h]
    rw [toUint16_natCast]
    norm_num
  · intro bytes err h
    simp only [writeMultipleRegisters, h]

/-- C15, at the tokens `1`, `2` and address 7: both operations make the call
`WriteMultipleRegisters(7, 2, [0 1 0 2])`. -/
theorem writeSingleRegisters_eq_writeMultipleRegisters_witness :
    convertUInt16TArray ["1", "2"] 16 = (some [0, 1, 0, 2], none) ∧
      (writeSingleRegisters (fun _ => (some [1], none)) 7 ["1", "2"]).calls =
        [Call.WriteMultipleRegisters 7 2 (some [0, 1, 0, 2])] ∧
      (writeMultipleRegisters (fun _ => (some [1], none)) 7 ["1", "2"]).calls =
        [Call.WriteMultipleRegisters 7 2 (some [0, 1, 0, 2])] :=
  ⟨by decide,
    (congrArg Run.calls
      ((writeSingleRegisters_eq_writeMultipleRegisters (fun _ => (some [1], none)) 7
        ["1", "2"]).1.trans
        ((writeSingleRegisters_eq_writeMultipleRegisters (fun _ => (some [1], none)) 7
          ["1", "2"]).2.1 (some [0, 1, 0, 2]) (by decide)).1)).trans (by decide),
    (congrArg Run.calls
      ((writeSingleRegisters_eq_writeMultipleRegisters (fun _ => (some [1], none)) 7
        ["1", "2"]).2.1 (some [0, 1, 0, 2]) (by decide)).1).trans (by decide)⟩


theorem address_writeSingleCoil (client : Client) (address : Int) (values : List String) :
    ∀ c ∈ (writeSingleCoil client address values).calls, c.address = toUint16 address := by
  intro c hc
  unfold writeSingleCoil at hc
  split at hc
  · simp at hc
  · split at hc
    · simp at hc
    · split at hc <;> simp only [returnCall, List.mem_singleton] at hc <;> subst hc <;> rfl

theorem address_writeRegisters (client : Client) (address : Int) (values : List String) :
    ∀ c ∈ (writeMultipleRegisters client address values).calls,
      c.address = toUint16 address := by
  intro c hc
  unfold writeMultipleRegisters at hc
  split at hc
  · simp at hc
  · simp only [returnCall, List.mem_singleton] at hc
    subst hc
    rfl

theorem address_writeMultipleCoils (client : Client) (address : Int) (values : List String) :
    ∀ c ∈ (writeMultipleCoils client address values).calls, c.address = toUint16 address := by
  intro c hc
  unfold writeMultipleCoils at hc
  split at hc
  · simp at hc
  · split at hc
    · simp at hc
    · simp only at hc
      split at hc
      · simp at hc
      · simp only [returnCall, List.mem_singleton] at hc
        subst hc
        rfl

/-! ## Packing beyond the width of an int -/

theorem toInt64_range (x : Int) : -2 ^ 63 ≤ toInt64 x ∧ toInt64 x < 2 ^ 63 := by
  unfold toInt64
  have e63 : (2 : Int) ^ 63 = 9223372036854775808 := by norm_num
  have e64 : (2 : Int) ^ 64 = 18446744073709551616 := by norm_num
  rw [e63, e64]
  omega

theorem toUint64_toInt64 (x : Int) : toUint64 (toInt64 x) = toUint64 x := by
  unfold toUint64 toInt64
  have e63 : (2 : Int) ^ 63 = 9223372036854775808 := by norm_num
  have e64 : (2 : Int) ^ 64 = 18446744073709551616 := by norm_num
  rw [e63, e64]
  omega

theorem toUint64_lt (x : Int) : toUint64 x < 2 ^ 64 := by
  unfold toUint64
  have e64 : (2 : Int) ^ 64 = 18446744073709551616 := by norm_num
  have e64n : (2 : Nat) ^ 64 = 18446744073709551616 := by norm_num
  rw [e64, e64n]
  omega

/-- A 64-bit value shifted left by 64 or more is 0. -/
theorem shl64_of_ge_64 (v : Int) (i : Nat) (h : 64 ≤ i) : shl64 v i = 0 := by
  unfold shl64 toInt64
  have hs : v * 2 ^ i = (v * 2 ^ (i - 64)) * 2 ^ 64 := by
    rw [mul_assoc, ← pow_add]
    congr 2
    omega
  rw [hs, Int.add_comm, Int.add_mul_emod_self]
  norm_num

theorem or64_zero (r : Int) (h1 : -2 ^ 63 ≤ r) (h2 : r < 2 ^ 63) : or64 r 0 = r := by
  unfold or64
  have hz : toUint64 0 = 0 := by decide
  rw [hz, Nat.or_zero]
  unfold toUint64 toInt64
  have e63 : (2 : Int) ^ 63 = 9223372036854775808 := by norm_num
  have e64 : (2 : Int) ^ 64 = 18446744073709551616 := by norm_num
  rw [e63] at h1 h2 ⊢
  rw [e64]
  omega

/-- From index 64 on, a token that parses leaves the accumulator as it is. -/
theorem convertStringArrayToIntLoop_past_64 (toks : List String) : ∀ (i : Nat) (ret v : Int),
    64 ≤ i → -2 ^ 63 ≤ ret → ret < 2 ^ 63 →
    convertStringArrayToIntLoop toks i ret = (v, none) → v = ret := by
  induction toks with
  | nil =>
    intro i ret v _ _ _ h
    rw [convertStringArrayToIntLoop] at h
    cases h
    rfl
  | cons t ts ih =>
    intro i ret v hi h1 h2 h
    rw [convertStringArrayToIntLoop] at h
    rcases hp : strconv.ParseInt t 2 with ⟨value, _ | e⟩
    · rw [hp] at h
      simp only at h
      rw [shl64_of_ge_64 value i hi, or64_zero ret h1 h2] at h
      exact ih (i + 1) ret v (by omega) h1 h2 h
    · rw [hp] at h
      cases h

/-- The loop over a concatenation: the second part continues from the result of the
first, and an error of the first part is the result. -/
theorem convertStringArrayToIntLoop_append (l1 l2 : List String) : ∀ (i : Nat) (ret : Int),
    convertStringArrayToIntLoop (l1 ++ l2) i ret =
      match convertStringArrayToIntLoop l1 i ret with
      | (r, none) => convertStringArrayToIntLoop l2 (i + l1.length) r
      | (r, some e) => (r, some e) := by
  induction l1 with
  | nil => intro i ret; simp [convertStringArrayToIntLoop]
  | cons t ts ih =>
    intro i ret
    rw [List.cons_append, convertStringArrayToIntLoop, convertStringArrayToIntLoop]
    rcases hp : strconv.ParseInt t 2 with ⟨value, _ | e⟩
    · simp only
      rw [ih (i + 1)]
      rw [List.length_cons, show i + (ts.length + 1) = i + 1 + ts.length by omega]
    · rfl

/-- The accumulator stays an int64. -/
theorem convertStringArrayToIntLoop_range (toks : List String) : ∀ (i : Nat) (ret v : Int),
    -2 ^ 63 ≤ ret → ret < 2 ^ 63 →
    convertStringArrayToIntLoop toks i ret = (v, none) → -2 ^ 63 ≤ v ∧ v < 2 ^ 63 := by
  induction toks with
  | nil =>
    intro i ret v h1 h2 h
    rw [convertStringArrayToIntLoop] at h
    cases h
    exact ⟨h1, h2⟩
  | cons t ts ih =>
    intro i ret v h1 h2 h
    rw [convertStringArrayToIntLoop] at h
    rcases hp : strconv.ParseInt t 2 with ⟨value, _ | e⟩
    · rw [hp] at h
      simp only at h
      have hr := toInt64_range ((toUint64 ret ||| toUint64 (shl64 value i) : Nat) : Int)
      exact ih (i + 1) _ v hr.1 hr.2 h
    · rw [hp] at h
      cases h

/-- Flags always parse. -/
theorem convertStringArrayToIntLoop_flags_parse (toks : List String) : ∀ (i : Nat) (ret : Int),
    (∀ t ∈ toks, t = "0" ∨ t = "1") →
    ∃ v, convertStringArrayToIntLoop toks i ret = (v, none) := by
  induction toks with
  | nil => intro i ret _; exact ⟨ret, rfl⟩
  | cons t ts ih =>
    intro i ret h
    have hts : ∀ x ∈ ts, x = "0" ∨ x = "1" := fun x hx => h x (List.mem_cons_of_mem t hx)
    rw [convertStringArrayToIntLoop]
    rcases h t (List.mem_cons_self t ts) with rfl | rfl
    · rw [ParseInt_zero]; exact ih _ _ hts
    · rw [ParseInt_one]; exact ih _ _ hts

/-- A list that parses gives the result of its first 64 tokens. -/
theorem convertStringArrayToInt_take_64 (l : List String) (v : Int)
    (h : convertStringArrayToInt l = (v, none)) :
    convertStringArrayToInt (l.take 64) = (v, none) := by
  rcases Nat.lt_or_ge 64 l.length with hlen | hlen
  · unfold convertStringArrayToInt at h ⊢
    rw [← List.take_append_drop 64 l, convertStringArrayToIntLoop_append] at h
    rcases hp : convertStringArrayToIntLoop (List.take 64 l) 0 0 with ⟨r, _ | e⟩
    · rw [hp] at h
      simp only at h
      have hr := convertStringArrayToIntLoop_range (List.take 64 l) 0 0 r
        (by norm_num) (by norm_num) hp
      have hl : (List.take 64 l).length = 64 := by
        rw [List.length_take]; omega
      rw [hl] at h
      rw [convertStringArrayToIntLoop_past_64 _ _ r v (by omega) hr.1 hr.2 h]
    · rw [hp] at h
      cases h
  · rw [List.take_of_length_le hlen]
    exact h

/-- C12: tokens past the 64th do not reach the packed integer.  On a list of flags
`convertStringArrayToInt` returns what it returns on the first 64 tokens, a 64-bit value
shifted left by 64 or more being 0; and two lists that agree on their first 64 tokens and
both parse give equal results. -/
theorem convertStringArrayToInt_drops_past_64 :
    (∀ toks : List String, (∀ t ∈ toks, t = "0" ∨ t = "1") →
        convertStringArrayToInt toks = convertStringArrayToInt (toks.take 64)) ∧
      (∀ (v : Int) (i : Nat), 64 ≤ i → shl64 v i = 0) ∧
      (∀ (l1 l2 : List String) (v1 v2 : Int), l1.take 64 = l2.take 64 →
        convertStringArrayToInt l1 = (v1, none) → convertStringArrayToInt l2 = (v2, none) →
        v1 = v2) := by
  refine ⟨?_, shl64_of_ge_64, ?_⟩
  · intro toks h
    rcases convertStringArrayToIntLoop_flags_parse toks 0 0 h with ⟨v, hv⟩
    have hv2 : convertStringArrayToInt toks = (v, none) := hv
    rw [hv2, convertStringArrayToInt_take_64 toks v hv2]
  · intro l1 l2 v1 v2 htake h1 h2
    have a1 := convertStringArrayToInt_take_64 l1 v1 h1
    have a2 := convertStringArrayToInt_take_64 l2 v2 h2
    rw [htake, a2] at a1
    cases a1
    rfl


set_option maxRecDepth 100000 in
/-- C12, at 64 flags followed by one more token: the 65th token changes nothing. -/
theorem convertStringArrayToInt_drops_past_64_witness :
    ((∀ t ∈ List.replicate 64 "0" ++ ["1"], t = "0" ∨ t = "1") ∧
        convertStringArrayToInt (List.replicate 64 "0" ++ ["1"]) =
          convertStringArrayToInt ((List.replicate 64 "0" ++ ["1"]).take 64)) ∧
      ((64 : Nat) ≤ 64 ∧ shl64 1 64 = 0) ∧
      ((List.replicate 64 "1" ++ ["1"]).take 64 = (List.replicate 64 "1" ++ ["0", "-1"]).take 64 ∧
        convertStringArrayToInt (List.replicate 64 "1" ++ ["1"]) = (-1, none) ∧
        convertStringArrayToInt (List.replicate 64 "1" ++ ["0", "-1"]) = (-1, none) ∧
        (-1 : Int) = -1) :=
  ⟨⟨by decide,
      convertStringArrayToInt_drops_past_64.1 (List.replicate 64 "0" ++ ["1"]) (by decide)⟩,
    ⟨by decide, convertStringArrayToInt_drops_past_64.2.1 1 64 (by decide)⟩,
    ⟨by decide, by decide, by decide,
      convertStringArrayToInt_drops_past_64.2.2 (List.replicate 64 "1" ++ ["1"])
        (List.replicate 64 "1" ++ ["0", "-1"]) (-1) (-1) (by decide) (by decide) (by decide)⟩⟩


/-! ## The coil bitmap -/

theorem toUint64_or64 (a b : Int) : toUint64 (or64 a b) = toUint64 a ||| toUint64 b := by
  unfold or64
  rw [toUint64_toInt64, toUint64_natCast]
  exact Nat.or_lt_two_pow (toUint64_lt a) (toUint64_lt b)

theorem toUint64_shl64_flag (b i : Nat) (hb : b ≤ 1) (hi : i ≤ 63) :
    toUint64 (shl64 (b : Int) i) = b * 2 ^ i := by
  unfold shl64
  have hc : (b : Int) * 2 ^ i = ((b * 2 ^ i : Nat) : Int) := by push_cast; ring
  rw [toUint64_toInt64, hc, toUint64_natCast]
  have hpow : 2 ^ i ≤ 2 ^ 63 := Nat.pow_le_pow_right (by norm_num) hi
  have e63 : (2 : Nat) ^ 63 = 9223372036854775808 := by norm_num
  have e64 : (2 : Nat) ^ 64 = 18446744073709551616 := by norm_num
  have hbi : b * 2 ^ i ≤ 2 ^ i := by
    simpa using Nat.mul_le_mul_right (2 ^ i) hb
  omega

/-- The bit pattern of the packed integer, for up to 64 flags: bit `i` is the `i`-th
flag, also when the 64th flag lands on the sign bit. -/
theorem convertStringArrayToIntLoop_bits (toks : List String) : ∀ (i : Nat) (ret : Int) (r : Nat),
    toUint64 ret = r → r < 2 ^ i → i + toks.length ≤ 64 →
    (∀ t ∈ toks, t = "0" ∨ t = "1") →
    ∃ v, convertStringArrayToIntLoop toks i ret = (v, none) ∧
      toUint64 v = r + packedFrom toks i := by
  induction toks with
  | nil => intro i ret r hr _ _ _; exact ⟨ret, rfl, by simp [packedFrom, hr]⟩
  | cons t ts ih =>
    intro i ret r hret hr hlen h
    simp only [List.length_cons] at hlen
    have hts : ∀ x ∈ ts, x = "0" ∨ x = "1" := fun x hx => h x (List.mem_cons_of_mem t hx)
    have hstep : ∀ b : Nat, b ≤ 1 →
        toUint64 (or64 ret (shl64 (b : Int) i)) = r + b * 2 ^ i ∧
          r + b * 2 ^ i < 2 ^ (i + 1) := by
      intro b hb
      have hbi : b * 2 ^ i ≤ 2 ^ i := by
        simpa using Nat.mul_le_mul_right (2 ^ i) hb
      rw [toUint64_or64, hret, toUint64_shl64_flag b i hb (by omega)]
      constructor
      · rw [Nat.lor_comm, Nat.mul_comm b, ← Nat.mul_add_lt_is_or hr b, Nat.add_comm]
      · rw [pow_succ]; omega
    rw [convertStringArrayToIntLoop]
    rcases h t (List.mem_cons_self t ts) with rfl | rfl
    · rw [ParseInt_zero]
      simp only
      have hs := hstep 0 (by norm_num)
      rw [show ((0 : Nat) : Int) = 0 from rfl] at hs
      rcases ih (i + 1) _ _ hs.1 hs.2 (by omega) hts with ⟨v, hv, hU⟩
      refine ⟨v, hv, ?_⟩
      have hval : numeralValue "0" = 0 := by decide
      rw [hU, packedFrom, hval, Nat.add_assoc]
    · rw [ParseInt_one]
      simp only
      have hs := hstep 1 (by norm_num)
      rw [show ((1 : Nat) : Int) = 1 from rfl] at hs
      rcases ih (i + 1) _ _ hs.1 hs.2 (by omega) hts with ⟨v, hv, hU⟩
      refine ⟨v, hv, ?_⟩
      have hval : numeralValue "1" = 1 := by decide
      rw [hU, packedFrom, hval, Nat.add_assoc]

theorem packedFrom_succ (toks : List String) : ∀ i : Nat,
    packedFrom toks (i + 1) = 2 * packedFrom toks i := by
  induction toks with
  | nil => intro i; rfl
  | cons t ts ih =>
    intro i
    rw [packedFrom, packedFrom, ih (i + 1), pow_succ]
    ring

/-- Bit `k` of the packed flags is the `k`-th flag, and 0 from the length of the list on. -/
theorem packedFrom_bit (toks : List String) (h : ∀ t ∈ toks, t = "0" ∨ t = "1") : ∀ k : Nat,
    packedFrom toks 0 / 2 ^ k % 2 =
      if k < toks.length then numeralValue (toks.getD k "") else 0 := by
  induction toks with
  | nil => intro k; simp [packedFrom]
  | cons t ts ih =>
    intro k
    have hts : ∀ x ∈ ts, x = "0" ∨ x = "1" := fun x hx => h x (List.mem_cons_of_mem t hx)
    have hb : numeralValue t ≤ 1 := by
      rcases h t (List.mem_cons_self t ts) with rfl | rfl <;> decide
    have hP : packedFrom (t :: ts) 0 = numeralValue t + 2 * packedFrom ts 0 := by
      rw [packedFrom, packedFrom_succ, pow_zero, Nat.mul_one]
    rw [hP]
    cases k with
    | zero =>
      simp only [pow_zero, Nat.div_one, List.length_cons, Nat.zero_lt_succ, if_true,
        List.getD_cons_zero]
      omega
    | succ k =>
      have hd : (numeralValue t + 2 * packedFrom ts 0) / 2 ^ (k + 1) =
          packedFrom ts 0 / 2 ^ k := by
        rw [pow_succ, Nat.mul_comm (2 ^ k) 2, ← Nat.div_div_eq_div_mul]
        congr 1
        omega
      rw [hd, ih hts k]
      simp only [List.length_cons, List.getD_cons_succ, Nat.succ_lt_succ_iff]

/-- Bit `i mod 8` of byte `i div 8` of a little-endian byte string is bit `i` of the
number. -/
theorem byte_bit (u i : Nat) : u / 2 ^ (8 * (i / 8)) % 256 / 2 ^ (i % 8) % 2 = u / 2 ^ i % 2 := by
  have hi : u / 2 ^ i = u / 2 ^ (8 * (i / 8)) / 2 ^ (i % 8) := by
    rw [Nat.div_div_eq_div_mul, ← pow_add]
    congr 2
    omega
  rw [hi]
  generalize u / 2 ^ (8 * (i / 8)) = y
  have hs : i % 8 < 8 := Nat.mod_lt _ (by norm_num)
  generalize i % 8 = s at hs
  interval_cases s <;> norm_num <;> omega

theorem getLen_natCast_small (n : Nat) (h : n ≤ 64) :
    getLen (n : Int) = (((n + 7) / 8 : Nat) : Int) := by
  have hf := float64OfInt_exact (n : Int) (by omega) (by norm_num; omega)
  have hl := getLen_least_float (n : Int)
  rw [hf] at hl
  have a := hl.2 (((n + 7) / 8 : Nat) : Int) (by omega)
  have b := hl.1
  omega

/-- The eight bytes of `v` after `binary.Write` and `reverse`: least significant first. -/
theorem reversed_bytes (v : Nat) :
    (reverse (binaryWriteUint64 v).1).returned =
      (List.range 8).map (fun j => v / 2 ^ (8 * j) % 256) := by
  have h : (reverse (binaryWriteUint64 v).1).returned = (binaryWriteUint64 v).1.reverse :=
    reverseLoop_eq_reverse _
  rw [h]
  rfl


/-- The payload of `writeMultipleCoils` for up to 64 flags: the first `ceil(n/8)` bytes of
the packed flags, least significant byte first. -/
theorem writeMultipleCoils_run (client : Client) (address : Int) (values : List String)
    (h64 : values.length ≤ 64) (h : ∀ t ∈ values, t = "0" ∨ t = "1") :
    writeMultipleCoils client address values =
      returnCall client
        (Call.WriteMultipleCoils (toUint16 address) values.length
          (some (((List.range 8).map (fun j => packedFrom values 0 / 2 ^ (8 * j) % 256) ++
            List.replicate 56 0).take ((values.length + 7) / 8)))) := by
  rcases convertStringArrayToIntLoop_bits values 0 0 0 (by decide) (by norm_num) (by omega) h
    with ⟨v, hv, hU⟩
  rw [Nat.zero_add] at hU
  have hc : convertStringArrayToInt values = (v, none) := hv
  have hget := getLen_natCast_small values.length h64
  have hb : binaryWriteUint64 (toUint64 v) = ((binaryWriteUint64 (toUint64 v)).1, none) := rfl
  have hq : toUint16 (values.length : Int) = values.length := by
    rw [toUint16_natCast]; omega
  have hlen : ((List.range 8).map (fun j => packedFrom values 0 / 2 ^ (8 * j) % 256)).length = 8 := by
    simp
  unfold writeMultipleCoils
  rw [hc]
  simp only
  rw [hb]
  simp only
  rw [reversed_bytes, hU, hget, hq, hlen]
  have hm : ¬ ((((values.length + 7) / 8 : Nat) : Int) < 0 ∨
      (((values.length + 7) / 8 : Nat) : Int) > (smallBufferSize : Int)) := by
    simp only [smallBufferSize]; omega
  rw [if_neg hm]
  simp only [smallBufferSize, Int.toNat_ofNat]

/-- C11: for `n` flags with `1 <= n <= 64`, `writeMultipleCoils` passes to
`client.WriteMultipleCoils` the quantity `n` and a payload of exactly `ceil(n/8)` bytes in
which coil `i` is bit `i mod 8` of byte `i div 8` and every bit from position `n` on is 0;
the slice bound `getLen(n)` is the payload length and lies within the 8 reversed bytes. -/
theorem writeMultipleCoils_bitmap (client : Client) (address : Int) (values : List String)
    (h1 : 1 ≤ values.length) (h64 : values.length ≤ 64)
    (h : ∀ t ∈ values, t = "0" ∨ t = "1") :
    ∃ payload : List Nat,
      writeMultipleCoils client address values =
        returnCall client
          (Call.WriteMultipleCoils (toUint16 address) values.length (some payload)) ∧
      payload.length = (values.length + 7) / 8 ∧
      getLen (values.length : Int) = (payload.length : Int) ∧ 1 ≤ payload.length ∧
      payload.length ≤ 8 ∧
      (∀ i, i < values.length → ∃ byte, payload[i / 8]? = some byte ∧
          byte / 2 ^ (i % 8) % 2 = numeralValue (values.getD i "")) ∧
      (∀ p, values.length ≤ p → p < 8 * payload.length → ∃ byte, payload[p / 8]? = some byte ∧
          byte / 2 ^ (p % 8) % 2 = 0) := by
  have hlen : (((List.range 8).map (fun j => packedFrom values 0 / 2 ^ (8 * j) % 256) ++
      List.replicate 56 0).take ((values.length + 7) / 8)).length = (values.length + 7) / 8 := by
    simp only [List.length_take, List.length_append, List.length_map, List.length_range,
      List.length_replicate]
    omega
  have hbyte : ∀ j, j < (values.length + 7) / 8 →
      (((List.range 8).map (fun j => packedFrom values 0 / 2 ^ (8 * j) % 256) ++
        List.replicate 56 0).take ((values.length + 7) / 8))[j]? =
        some (packedFrom values 0 / 2 ^ (8 * j) % 256) := by
    intro j hj
    have hj8 : j < 8 := by omega
    rw [List.getElem?_take_of_lt hj, List.getElem?_append_left (by simp; exact hj8),
      List.getElem?_map, List.getElem?_range hj8]
    rfl
  refine ⟨_, writeMultipleCoils_run client address values h64 h, hlen, ?_, ?_, ?_, ?_, ?_⟩
  · rw [hlen]; exact getLen_natCast_small values.length h64
  · rw [hlen]; omega
  · rw [hlen]; omega
  · intro i hi
    refine ⟨_, hbyte (i / 8) (by omega), ?_⟩
    rw [byte_bit, packedFrom_bit values h i, if_pos hi]
  · intro p hp1 hp2
    rw [hlen] at hp2
    refine ⟨_, hbyte (p / 8) (by omega), ?_⟩
    rw [byte_bit, packedFrom_bit values h p, if_neg (by omega)]

/-- C11, at the nine flags `1 0 1 1 0 0 0 0 1` and address 3: the payload is the two
bytes `0x0D 0x01` and the quantity is 9. -/
theorem writeMultipleCoils_bitmap_witness :
    ((1 : Nat) ≤ ["1", "0", "1", "1", "0", "0", "0", "0", "1"].length ∧
        ["1", "0", "1", "1", "0", "0", "0", "0", "1"].length ≤ 64 ∧
        ∀ t ∈ ["1", "0", "1", "1", "0", "0", "0", "0", "1"], t = "0" ∨ t = "1") ∧
      (∃ payload : List Nat,
        writeMultipleCoils (fun _ => (some [1], none)) 3
            ["1", "0", "1", "1", "0", "0", "0", "0", "1"] =
          returnCall (fun _ => (some [1], none))
            (Call.WriteMultipleCoils 3 9 (some payload)) ∧
        payload.length = 2 ∧ payload[0]? = some 0x0D ∧ payload[1]? = some 0x01) := by
  refine ⟨⟨by decide, by decide, by decide⟩, ?_⟩
  rcases writeMultipleCoils_bitmap (fun _ => (some [1], none)) 3
    ["1", "0", "1", "1", "0", "0", "0", "0", "1"] (by decide) (by decide) (by decide)
    with ⟨payload, hrun, hlen, _, _, _, _, _⟩
  have hrun2 := writeMultipleCoils_run (fun _ => (some [1], none)) 3
    ["1", "0", "1", "1", "0", "0", "0", "0", "1"] (by decide) (by decide)
  rw [hrun] at hrun2
  have hp : payload = [0x0D, 0x01] := by
    have := congrArg Run.calls hrun2
    simp only [returnCall, List.cons.injEq, Call.WriteMultipleCoils.injEq, Option.some.injEq,
      and_true, true_and] at this
    rw [this]
    decide
  subst hp
  exact ⟨[0x0D, 0x01], hrun, rfl, rfl, rfl⟩


/-! ## The address argument -/

theorem getLen_natCast (n : Nat) (h : n ≤ 2 ^ 53) :
    getLen (n : Int) = (((n + 7) / 8 : Nat) : Int) := by
  have e53 : (2 : Nat) ^ 53 = 9007199254740992 := by norm_num
  rw [e53] at h
  have hf := float64OfInt_exact (n : Int) (by omega) (by norm_num; omega)
  have hl := getLen_least_float (n : Int)
  rw [hf] at hl
  have a := hl.2 (((n + 7) / 8 : Nat) : Int) (by omega)
  have b := hl.1
  omega

theorem toUint16_congr (a b : Int) (h : a % 2 ^ 16 = b % 2 ^ 16) : toUint16 a = toUint16 b := by
  unfold toUint16
  rw [h]

/-- What `writeSingleCoil` does once the conversion has returned a first byte `v`. -/
theorem writeSingleCoil_call (client : Client) (address : Int) (values : List String)
    (v : Nat) (l : List Nat) (h : convertToByteArray values = (some (v :: l), none)) :
    writeSingleCoil client address values =
      returnCall client
        (Call.WriteSingleCoil (toUint16 address) (if v ≥ 1 then 0xFF00 else 0x0000)) := by
  simp only [writeSingleCoil, h, Option.getD_some, List.getElem?_cons_zero]
  by_cases hv : v ≥ 1
  · rw [if_pos hv, if_pos hv]
  · rw [if_neg hv, if_neg hv]

/-- What the register writes do once the conversion has returned `bytes`. -/
theorem writeMultipleRegisters_call (client : Client) (address : Int) (values : List String)
    (bytes : ByteSlice) (h : convertUInt16TArray values 16 = (bytes, none)) :
    writeMultipleRegisters client address values =
      returnCall client
        (Call.WriteMultipleRegisters (toUint16 address) (len bytes / 2 % 2 ^ 16) bytes) := by
  simp only [writeMultipleRegisters, h]
  rw [toUint16_natCast]
  norm_num

/-- What `writeMultipleCoils` does once the conversion has returned `v`, for up to 512
tokens (the slice bound then lies within the capacity). -/
theorem writeMultipleCoils_call (client : Client) (address : Int) (values : List String)
    (v : Int) (h : convertStringArrayToInt values = (v, none)) (hlen : values.length ≤ 512) :
    writeMultipleCoils client address values =
      returnCall client
        (Call.WriteMultipleCoils (toUint16 address) (values.length % 2 ^ 16)
          (some (((reverse (binaryWriteUint64 (toUint64 v)).1).returned ++
            List.replicate 56 0).take ((values.length + 7) / 8)))) := by
  have hget := getLen_natCast values.length (by norm_num; omega)
  have hb : binaryWriteUint64 (toUint64 v) = ((binaryWriteUint64 (toUint64 v)).1, none) := rfl
  have hq : toUint16 (values.length : Int) = values.length % 2 ^ 16 := by
    rw [toUint16_natCast]; norm_num
  have hr : (reverse (binaryWriteUint64 (toUint64 v)).1).returned.length = 8 := by
    rw [reversed_bytes]; simp
  unfold writeMultipleCoils
  rw [h]
  simp only
  rw [hb]
  simp only
  rw [hget, hq, hr]
  have hm : ¬ ((((values.length + 7) / 8 : Nat) : Int) < 0 ∨
      (((values.length + 7) / 8 : Nat) : Int) > (smallBufferSize : Int)) := by
    simp only [smallBufferSize]; omega
  rw [if_neg hm]
  simp only [smallBufferSize, Int.toNat_ofNat]

/-- Addresses that agree modulo `2^16` give the same run of every operation. -/
theorem run_congr_address (client : Client) (a b : Int) (h : a % 2 ^ 16 = b % 2 ^ 16)
    (size : Int) (values : List String) :
    writeSingleCoil client a values = writeSingleCoil client b values ∧
      writeMultipleCoils client a values = writeMultipleCoils client b values ∧
      writeMultipleRegisters client a values = writeMultipleRegisters client b values ∧
      writeSingleRegisters client a values = writeSingleRegisters client b values ∧
      readCoils client a size = readCoils client b size := by
  have ht := toUint16_congr a b h
  refine ⟨?_, ?_, ?_, ?_, ?_⟩
  · simp only [writeSingleCoil, ht]
  · simp only [writeMultipleCoils, ht]
  · simp only [writeMultipleRegisters, ht]
  · simp only [writeSingleRegisters, ht]
  · simp only [readCoils, ht]


/-- C16: the address is reduced modulo `2^16`, not validated.  For every integer address,
each write operation whose conversion succeeds, and `readCoils` always, makes its call
with `address mod 2^16`; addresses that agree modulo `2^16` give the same run, so no
address is rejected; an address in `0..65535` is passed unchanged; and the default `-1`
of the `address` flag behaves as 65535 and is sent as 65535 whatever the operation. -/
theorem address_reduced_mod_two_pow_16 (client : Client) (address size : Int)
    (values : List String) :
    (∀ (v : Nat) (l : List Nat), convertToByteArray values = (some (v :: l), none) →
        writeSingleCoil client address values =
          returnCall client
            (Call.WriteSingleCoil (address % 2 ^ 16).toNat
              (if v ≥ 1 then 0xFF00 else 0x0000))) ∧
      (∀ v : Int, convertStringArrayToInt values = (v, none) → values.length ≤ 512 →
        writeMultipleCoils client address values =
          returnCall client
            (Call.WriteMultipleCoils (address % 2 ^ 16).toNat (values.length % 2 ^ 16)
              (some (((reverse (binaryWriteUint64 (toUint64 v)).1).returned ++
                List.replicate 56 0).take ((values.length + 7) / 8))))) ∧
      (∀ bytes : ByteSlice, convertUInt16TArray values 16 = (bytes, none) →
        writeMultipleRegisters client address values =
          returnCall client
            (Call.WriteMultipleRegisters (address % 2 ^ 16).toNat (len bytes / 2 % 2 ^ 16)
              bytes)) ∧
      (∀ bytes : ByteSlice, convertUInt16TArray values 16 = (bytes, none) →
        writeSingleRegisters client address values =
          returnCall client
            (Call.WriteMultipleRegisters (address % 2 ^ 16).toNat (len bytes / 2 % 2 ^ 16)
              bytes)) ∧
      readCoils client address size =
        returnCall client (Call.ReadCoils (address % 2 ^ 16).toNat (size % 2 ^ 16).toNat) ∧
      (∀ other : Int, other % 2 ^ 16 = address % 2 ^ 16 →
        writeSingleCoil client other values = writeSingleCoil client address values ∧
          writeMultipleCoils client other values = writeMultipleCoils client address values ∧
          writeMultipleRegisters client other values =
            writeMultipleRegisters client address values ∧
          writeSingleRegisters client other values =
            writeSingleRegisters client address values ∧
          readCoils client other size = readCoils client address size) ∧
      (∀ c ∈ (writeSingleCoil client address values).calls,
        c.address = (address % 2 ^ 16).toNat) ∧
      (∀ c ∈ (writeMultipleCoils client address values).calls,
        c.address = (address % 2 ^ 16).toNat) ∧
      (∀ c ∈ (writeMultipleRegisters client address values).calls,
        c.address = (address % 2 ^ 16).toNat) ∧
      (∀ c ∈ (writeSingleRegisters client address values).calls,
        c.address = (address % 2 ^ 16).toNat) ∧
      (readCoils client address size).calls =
        [Call.ReadCoils (address % 2 ^ 16).toNat (size % 2 ^ 16).toNat] ∧
      (0 ≤ address → address ≤ 65535 → ((address % 2 ^ 16).toNat : Int) = address) ∧
      prepareFlags.address = -1 ∧
      (∀ (operation : String) (sz : Int),
        mainSwitch client { prepareFlags with operation := operation, size := sz } values =
          mainSwitch client
            { host := "", port := 502, operation := operation, address := 65535, size := sz }
            values) ∧
      (∀ (operation : String) (sz : Int),
        ∀ c ∈ (mainSwitch client { prepareFlags with operation := operation, size := sz }
            values).calls,
          c.address = 65535) := by
  refine ⟨writeSingleCoil_call client address values,
    writeMultipleCoils_call client address values,
    writeMultipleRegisters_call client address values,
    writeMultipleRegisters_call client address values, rfl,
    fun other h => run_congr_address client other address h size values,
    address_writeSingleCoil client address values,
    address_writeMultipleCoils client address values,
    address_writeRegisters client address values,
    address_writeRegisters client address values, rfl, ?_, rfl, ?_, ?_⟩
  · intro h0 h1
    have e : (2 : Int) ^ 16 = 65536 := by norm_num
    rw [e]
    omega
  · intro operation sz
    have hc := fun s : Int => run_congr_address client (-1) 65535 (by decide) s values
    unfold mainSwitch
    simp only [prepareFlags]
    rw [(hc sz).1, (hc sz).2.1, (hc sz).2.2.1, (hc sz).2.2.2.1, (hc sz).2.2.2.2]
  · intro operation sz c hc
    have e : toUint16 (-1) = 65535 := by decide
    unfold mainSwitch at hc
    simp only [prepareFlags] at hc
    split at hc
    · rw [← e]; exact address_writeSingleCoil client (-1) values c hc
    · split at hc
      · rw [← e]; exact address_writeRegisters client (-1) values c hc
      · split at hc
        · rw [← e]; exact address_writeMultipleCoils client (-1) values c hc
        · split at hc
          · rw [← e]; exact address_writeRegisters client (-1) values c hc
          · split at hc
            · simp only [readCoils, returnCall, List.mem_singleton] at hc
              subst hc
              exact e
            · simp at hc

/-- C16, at addresses outside `0..65535` and at the default flags: at address 70000 the
four write operations and `readCoils` each call the client at `70000 mod 65536 = 4464`;
the address 502 is passed unchanged; and with no `-address` flag `writeSingleCoil 1` is
the call `WriteSingleCoil(65535, 0xFF00)`. -/
theorem address_reduced_mod_two_pow_16_witness :
    (convertToByteArray ["1"] = (some [1], none) ∧
        (writeSingleCoil (fun _ => (some [1], none)) 70000 ["1"]).calls =
          [Call.WriteSingleCoil 4464 0xFF00]) ∧
      (convertStringArrayToInt ["1", "0", "1"] = (5, none) ∧
        ["1", "0", "1"].length ≤ 512 ∧
        (writeMultipleCoils (fun _ => (some [1], none)) 70000 ["1", "0", "1"]).calls =
          [Call.WriteMultipleCoils 4464 3 (some [5])]) ∧
      (convertUInt16TArray ["1", "2"] 16 = (some [0, 1, 0, 2], none) ∧
        (writeMultipleRegisters (fun _ => (some [1], none)) 70000 ["1", "2"]).calls =
          [Call.WriteMultipleRegisters 4464 2 (some [0, 1, 0, 2])] ∧
        (writeSingleRegisters (fun _ => (some [1], none)) 70000 ["1", "2"]).calls =
          [Call.WriteMultipleRegisters 4464 2 (some [0, 1, 0, 2])]) ∧
      (readCoils (fun _ => (some [1], none)) 70000 8).calls = [Call.ReadCoils 4464 8] ∧
      ((4464 : Int) % 2 ^ 16 = 70000 % 2 ^ 16 ∧
        writeSingleCoil (fun _ => (some [1], none)) 4464 ["1"] =
          writeSingleCoil (fun _ => (some [1], none)) 70000 ["1"]) ∧
      ((0 : Int) ≤ 502 ∧ (502 : Int) ≤ 65535 ∧ (((502 : Int) % 2 ^ 16).toNat : Int) = 502) ∧
      (mainSwitch (fun _ => (some [1], none))
          { prepareFlags with operation := "writeSingleCoil", size := -1 } ["1"]).calls =
        [Call.WriteSingleCoil 65535 0xFF00] ∧
      (∀ c ∈ (mainSwitch (fun _ => (some [1], none))
          { prepareFlags with operation := "writeSingleCoil", size := -1 } ["1"]).calls,
        c.address = 65535) :=
  ⟨⟨by decide,
      (congrArg Run.calls
        ((address_reduced_mod_two_pow_16 (fun _ => (some [1], none)) 70000 8 ["1"]).1
          1 [] (by decide))).trans (by decide)⟩,
    ⟨by decide, by decide,
      (congrArg Run.calls
        ((address_reduced_mod_two_pow_16 (fun _ => (some [1], none)) 70000 8
          ["1", "0", "1"]).2.1 5 (by decide) (by decide))).trans (by decide)⟩,
    ⟨by decide,
      (congrArg Run.calls
        ((address_reduced_mod_two_pow_16 (fun _ => (some [1], none)) 70000 8
          ["1", "2"]).2.2.1 (some [0, 1, 0, 2]) (by decide))).trans (by decide),
      (congrArg Run.calls
        ((address_reduced_mod_two_pow_16 (fun _ => (some [1], none)) 70000 8
          ["1", "2"]).2.2.2.1 (some [0, 1, 0, 2]) (by decide))).trans (by decide)⟩,
    (congrArg Run.calls
      (address_reduced_mod_two_pow_16 (fun _ => (some [1], none)) 70000 8 []).2.2.2.2.1).trans
      (by decide),
    ⟨by decide,
      ((address_reduced_mod_two_pow_16 (fun _ => (some [1], none)) 70000 8
        ["1"]).2.2.2.2.2.1 4464 (by decide)).1⟩,
    ⟨by decide, by decide,
      (address_reduced_mod_two_pow_16 (fun _ => (some [1], none)) 502 8
        []).2.2.2.2.2.2.2.2.2.2.2.1 (by decide) (by decide)⟩,
    (congrArg Run.calls
      ((address_reduced_mod_two_pow_16 (fun _ => (some [1], none)) 0 0
        ["1"]).2.2.2.2.2.2.2.2.2.2.2.2.2.1 "writeSingleCoil" (-1))).trans (by decide),
    (address_reduced_mod_two_pow_16 (fun _ => (some [1], none)) 0 0
      ["1"]).2.2.2.2.2.2.2.2.2.2.2.2.2.2 "writeSingleCoil" (-1)⟩


end ModbusCli
